import Mathlib

/-!
Shallow embedding of the live markdown annotation engine of
`src/teacher-docs-editor/src/editor/livePreview.ts` (the first copy of the
module, lines 1-500, which is the one the specification describes: it
contains strikethrough, table and alignment handling).

The document is a `List Char`; lines are the segments between newline
characters, with CodeMirror's conventions: 1-based line numbers, `fromPos`
the offset of the first character of the line, `toPos` the offset just past
the last character (the newline separator sits at `toPos`).

JavaScript regular-expression scans are embedded as explicit fuel-indexed
scanners (structural recursion on the fuel, so that concrete runs reduce in
the kernel); the fuel passed by the wrappers is always sufficient, since
every step of a scan consumes at least one character of the input.
-/

namespace LivePreview

/-- JavaScript `\s` on the characters that can occur in this engine's input. -/
def jsSpace (c : Char) : Bool :=
  c == ' ' || c == '\t' || c == '\n' || c == '\r' || c == '\x0b' || c == '\x0c'

/-- JavaScript `String.prototype.trim`. -/
def jsTrim (cs : List Char) : List Char :=
  ((cs.dropWhile jsSpace).reverse.dropWhile jsSpace).reverse

/-- JavaScript `String.prototype.split` with a one-character separator
(accumulator-based so it is structural). -/
def splitOnCharAux (sep : Char) : List Char → List Char → List (List Char)
  | [], acc => [acc.reverse]
  | c :: rest, acc =>
    if c = sep then acc.reverse :: splitOnCharAux sep rest []
    else splitOnCharAux sep rest (c :: acc)

/-- JavaScript `split(sep)` for a one-character separator. -/
def splitOnChar (sep : Char) (cs : List Char) : List (List Char) :=
  splitOnCharAux sep cs []

/-- The lines of a document, in order (a document always has at least one line). -/
def splitLines (cs : List Char) : List (List Char) :=
  splitOnChar '\n' cs

/-- CodeMirror's line object: `from`, `to`, `text`, `number` (the `from` and
`to` field names are Lean keywords, hence `fromPos` and `toPos`). -/
structure LineInfo where
  fromPos : Nat
  toPos : Nat
  text : List Char
  num : Nat
deriving Repr, DecidableEq

/-- Builds the `LineInfo` list for consecutive line texts starting at a given
offset and 1-based line number; each newline separator occupies one offset. -/
def mkLineInfos : List (List Char) → Nat → Nat → List LineInfo
  | [], _, _ => []
  | t :: rest, pos, num =>
    ⟨pos, pos + t.length, t, num⟩ :: mkLineInfos rest (pos + t.length + 1) (num + 1)

/-- All lines of the document with their offsets and numbers. -/
def docLines (doc : List Char) : List LineInfo :=
  mkLineInfos (splitLines doc) 0 1

/-- CodeMirror `doc.lines`: the number of lines. -/
def numLines (doc : List Char) : Nat :=
  (splitLines doc).length

/-- Placeholder line (out-of-range lookups never occur on the source's inputs). -/
def defaultLine : LineInfo := ⟨0, 0, [], 0⟩

/-- CodeMirror `doc.line(n)`: the line with 1-based number `n`. -/
def lineGet (doc : List Char) (n : Nat) : LineInfo :=
  (docLines doc).getD (n - 1) defaultLine

/-- CodeMirror `doc.lineAt(pos)`: the line containing offset `pos`
(the first line whose `to` is at or past `pos`). -/
def lineAt (doc : List Char) (pos : Nat) : LineInfo :=
  ((docLines doc).find? (fun l => decide (pos ≤ l.toPos))).getD defaultLine

/-- The first index of `cs` at which `pat` occurs as a prefix of the suffix,
like `RegExp.exec` for a literal pattern reporting `match.index`. -/
def findIndexOfPrefix (pat : List Char) : List Char → Option Nat
  | [] => if pat.isPrefixOf ([] : List Char) then some 0 else none
  | c :: rest =>
    if pat.isPrefixOf (c :: rest) then some 0
    else (findIndexOfPrefix pat rest).map (· + 1)

/-- `intersectsSelection` (livePreview.ts:131-134): the selection-visibility
predicate, `!(to <= sel.from || from >= sel.to)` for the main selection range.
The spec calls this predicate `shouldReveal`. -/
def intersectsSelection (fromPos toPos : Nat) (sel : Nat × Nat) : Bool :=
  !(decide (toPos ≤ sel.1) || decide (fromPos ≥ sel.2))

/-- A fenced-code region recorded by the first pre-scan pass
(`end` is a Lean keyword, hence `stop`). -/
structure CodeBlockRange where
  start : Nat
  stop : Nat
  startLine : Nat
  endLine : Nat
deriving Repr, DecidableEq

/-- The fenced-code pre-scan loop (livePreview.ts:148-180).  At the current
`searchPos` the code runs `/^```/.exec(doc.sliceString(searchPos))`; that
regular expression has no `m` flag, so it matches only when the backtick
fence starts exactly at `searchPos` (hence `match.index` is always 0);
otherwise the loop breaks.  A found opener is closed at the next `"\n```"`;
with no closer the loop breaks without recording anything. -/
def scanCodeBlocksAux (doc : List Char) : Nat → Nat → List CodeBlockRange
  | 0, _ => []
  | fuel + 1, searchPos =>
    if searchPos < doc.length then
      let textFromPos := doc.drop searchPos
      if ("```".data).isPrefixOf textFromPos then
        let openStart := searchPos
        let openPos := openStart + 3
        let textAfterOpen := doc.drop openPos
        match findIndexOfPrefix ("\n```".data) textAfterOpen with
        | none => []
        | some idx =>
          let closeStart := openPos + idx
          let closeEnd := closeStart + 4
          ⟨openStart, closeEnd, (lineAt doc openStart).num, (lineAt doc closeEnd).num⟩
            :: scanCodeBlocksAux doc fuel closeEnd
      else []
    else []

/-- The fenced-code pre-scan over the whole document. -/
def scanCodeBlocks (doc : List Char) : List CodeBlockRange :=
  scanCodeBlocksAux doc (doc.length + 1) 0

/-- Number of pipe characters in a line, `(line.text.match(/\|/g) || []).length`. -/
def countPipes (text : List Char) : Nat :=
  text.countP (fun c => c == '|')

/-- The table-row test of the pre-scan (livePreview.ts:186):
`line.text.trim().startsWith("|") && (line.text.match(/\|/g) || []).length >= 2`. -/
def isTableRow (text : List Char) : Bool :=
  decide ((jsTrim text).head? = some '|') && decide (2 ≤ countPipes text)

/-- The inner `while` of the table pre-scan: extends `tableEndLine` while the
next line is also a table row (livePreview.ts:189-196). -/
def tableEndLineAux (doc : List Char) : Nat → Nat → Nat
  | 0, t => t
  | fuel + 1, t =>
    if t < numLines doc ∧ isTableRow (lineGet doc (t + 1)).text = true then
      tableEndLineAux doc fuel (t + 1)
    else t

/-- A table-block region recorded by the pre-scan. -/
structure TableBlockRange where
  startLine : Nat
  endLine : Nat
  startPos : Nat
  endPos : Nat
deriving Repr, DecidableEq

/-- The table pre-scan loop (livePreview.ts:183-205): finds a table row,
extends it to the run's last line, records the region and resumes after it. -/
def scanTableBlocksAux (doc : List Char) : Nat → Nat → List TableBlockRange
  | 0, _ => []
  | fuel + 1, lineNo =>
    if lineNo ≤ numLines doc then
      if isTableRow (lineGet doc lineNo).text then
        let e := tableEndLineAux doc (numLines doc) lineNo
        ⟨lineNo, e, (lineGet doc lineNo).fromPos, (lineGet doc e).toPos⟩
          :: scanTableBlocksAux doc fuel (e + 1)
      else scanTableBlocksAux doc fuel (lineNo + 1)
    else []

/-- The table pre-scan over the whole document. -/
def scanTableBlocks (doc : List Char) : List TableBlockRange :=
  scanTableBlocksAux doc (numLines doc + 1) 1

/-- The inline-code scan, regex `/`([^`\n]+)`/g` (livePreview.ts:259-261):
a backtick, one-or-more non-backtick non-newline characters, a backtick;
returns `(fullStart, fullEnd)` pairs, resuming after each match. -/
def codeScanAux : Nat → List Char → Nat → List (Nat × Nat)
  | 0, _, _ => []
  | _, [], _ => []
  | fuel + 1, c :: rest, i =>
    if c = '\x60' then
      let k := (rest.takeWhile (fun d => !(d == '\x60' || d == '\n'))).length
      if 0 < k ∧ rest[k]? = some '\x60' then
        (i, i + k + 2) :: codeScanAux fuel (rest.drop (k + 1)) (i + k + 2)
      else codeScanAux fuel rest (i + 1)
    else codeScanAux fuel rest (i + 1)

/-- All inline-code matches of a line. -/
def codeScan (text : List Char) : List (Nat × Nat) :=
  codeScanAux (text.length + 1) text 0

/-- The link scan, regex `/\[([^\]\n]+)\]\(([^)\n]+)\)/g` (livePreview.ts:286-288):
returns `(fullStart, textLen, urlLen)` triples. -/
def linkScanAux : Nat → List Char → Nat → List (Nat × Nat × Nat)
  | 0, _, _ => []
  | _, [], _ => []
  | fuel + 1, c :: rest, i =>
    if c = '[' then
      let t := (rest.takeWhile (fun d => !(d == ']' || d == '\n'))).length
      if 0 < t ∧ rest[t]? = some ']' ∧ rest[t + 1]? = some '(' then
        let rest2 := rest.drop (t + 2)
        let u := (rest2.takeWhile (fun d => !(d == ')' || d == '\n'))).length
        if 0 < u ∧ rest2[u]? = some ')' then
          (i, t, u) :: linkScanAux fuel (rest2.drop (u + 1)) (i + t + u + 4)
        else linkScanAux fuel rest (i + 1)
      else linkScanAux fuel rest (i + 1)
    else linkScanAux fuel rest (i + 1)

/-- All link matches of a line. -/
def linkScan (text : List Char) : List (Nat × Nat × Nat) :=
  linkScanAux (text.length + 1) text 0

/-- A block-reference id character, `[a-zA-Z0-9_-]`. -/
def isIdChar (c : Char) : Bool :=
  c.isAlpha || c.isDigit || c == '_' || c == '-'

/-- The block-pill scan, regex `/\[\[block:([a-zA-Z0-9_-]+)\]\]/g`
(livePreview.ts:343-345): returns `(start, id)` pairs; the token length is
`10 + id.length`. -/
def blockScanAux : Nat → List Char → Nat → List (Nat × List Char)
  | 0, _, _ => []
  | _, [], _ => []
  | fuel + 1, c :: rest, i =>
    if ("[[block:".data).isPrefixOf (c :: rest) then
      let after := (c :: rest).drop 8
      let idrun := after.takeWhile isIdChar
      if 0 < idrun.length ∧ ("]]".data).isPrefixOf (after.drop idrun.length) then
        (i, idrun) :: blockScanAux fuel (after.drop (idrun.length + 2)) (i + 10 + idrun.length)
      else blockScanAux fuel rest (i + 1)
    else blockScanAux fuel rest (i + 1)

/-- All block-pill matches of a line. -/
def blockScan (text : List Char) : List (Nat × List Char) :=
  blockScanAux (text.length + 1) text 0

/-- The heading match, regex `/^(#{1,6})\s+/` (livePreview.ts:361): one to six
leading hashes followed by at least one whitespace character; returns
`(level, markerLen)` where `markerLen` is hashes plus whitespace. -/
def headingMatch (text : List Char) : Option (Nat × Nat) :=
  let hs := (text.takeWhile (fun d => d == '#')).length
  if 1 ≤ hs ∧ hs ≤ 6 then
    let ws := ((text.drop hs).takeWhile jsSpace).length
    if 0 < ws then some (hs, hs + ws) else none
  else none

/-- The double-marker scan shared by bold `/\*\*([^\n*][\s\S]*?)\*\*/g`
(livePreview.ts:378) and strikethrough `/~~([^\n~][\s\S]*?)~~/g`
(livePreview.ts:437): two markers, a first inner character that is neither a
marker nor a newline, a lazy run closed by the next two consecutive markers;
returns `(fullStart, fullEnd)` pairs. -/
def doubleMarkScanAux (marker : Char) : Nat → List Char → Nat → List (Nat × Nat)
  | 0, _, _ => []
  | _, [], _ => []
  | fuel + 1, c :: rest, i =>
    match rest with
    | c2 :: c3 :: _ =>
      if c = marker ∧ c2 = marker ∧ c3 ≠ marker ∧ c3 ≠ '\n' then
        match findIndexOfPrefix [marker, marker] (rest.drop 2) with
        | some j =>
          (i, i + 5 + j) :: doubleMarkScanAux marker fuel ((rest.drop 2).drop (j + 2)) (i + 5 + j)
        | none => doubleMarkScanAux marker fuel rest (i + 1)
      else doubleMarkScanAux marker fuel rest (i + 1)
    | _ => doubleMarkScanAux marker fuel rest (i + 1)

/-- All bold matches of a line. -/
def boldScan (text : List Char) : List (Nat × Nat) :=
  doubleMarkScanAux '*' (text.length + 1) text 0

/-- All strikethrough matches of a line. -/
def strikeScan (text : List Char) : List (Nat × Nat) :=
  doubleMarkScanAux '~' (text.length + 1) text 0

/-- Attempt of the tail of an italic match after its opening star: the lazy
run `([^*\n]+?)` is closed by the first following star, which must not itself
be followed by a star (the `(?!\*)` lookahead); returns the inner length. -/
def starTry (tail : List Char) : Option Nat :=
  let k := (tail.takeWhile (fun d => !(d == '*' || d == '\n'))).length
  if 0 < k ∧ tail[k]? = some '*' ∧ tail[k + 1]? ≠ some '*' then some k else none

/-- The italic scan, regex `/(^|[^*])\*([^*\n]+?)\*(?!\*)/g`
(livePreview.ts:407): the opening star is either at the very start of the
line (the `^` alternative, only at absolute index 0) or preceded by a
consumed non-star character; returns `(openingStarIndex, closingStarIndex)`
pairs. -/
def italicScanAux : Nat → List Char → Nat → List (Nat × Nat)
  | 0, _, _ => []
  | _, [], _ => []
  | fuel + 1, c :: rest, i =>
    if c = '*' then
      if i = 0 then
        match starTry rest with
        | some k => (0, k + 1) :: italicScanAux fuel (rest.drop (k + 1)) (k + 2)
        | none => italicScanAux fuel rest (i + 1)
      else italicScanAux fuel rest (i + 1)
    else
      match rest with
      | r1 :: tail =>
        if r1 = '*' then
          match starTry tail with
          | some k => (i + 1, i + 2 + k) :: italicScanAux fuel (tail.drop (k + 1)) (i + 3 + k)
          | none => italicScanAux fuel rest (i + 1)
        else italicScanAux fuel rest (i + 1)
      | [] => []

/-- All italic matches of a line. -/
def italicScan (text : List Char) : List (Nat × Nat) :=
  italicScanAux (text.length + 1) text 0

/-- The alignment-directive scan, regex `/\[align-(left|center|right)\]/g`
(livePreview.ts:462): returns `(start, alignmentType)` pairs; the directive
length is `8 + alignmentType.length`. -/
def alignScanAux : Nat → List Char → Nat → List (Nat × String)
  | 0, _, _ => []
  | _, [], _ => []
  | fuel + 1, c :: rest, i =>
    if ("[align-left]".data).isPrefixOf (c :: rest) then
      (i, "left") :: alignScanAux fuel ((c :: rest).drop 12) (i + 12)
    else if ("[align-center]".data).isPrefixOf (c :: rest) then
      (i, "center") :: alignScanAux fuel ((c :: rest).drop 14) (i + 14)
    else if ("[align-right]".data).isPrefixOf (c :: rest) then
      (i, "right") :: alignScanAux fuel ((c :: rest).drop 13) (i + 13)
    else alignScanAux fuel rest (i + 1)

/-- All alignment-directive matches of a line. -/
def alignScan (text : List Char) : List (Nat × String) :=
  alignScanAux (text.length + 1) text 0

/-- A decoration, the tagged union of what `buildDecorations` pushes:
`Decoration.replace({})` over a span (hide), `Decoration.replace` with a
`BlockPillWidget` (widget substitution, identified by its `(id, label)` pair
as in `BlockPillWidget.eq`), a `Decoration.widget` insertion carrying a
`TableWidget` (identified by its `tableMarkdown` as in `TableWidget.eq`),
`Decoration.mark` with a class, and `Decoration.line` with a class. -/
inductive Deco where
  | replace (fromPos toPos : Nat)
  | blockPill (fromPos toPos : Nat) (id : List Char) (label : List Char)
  | tableWidget (atPos : Nat) (tableMarkdown : List Char)
  | mark (cls : String) (fromPos toPos : Nat)
  | lineClass (cls : String) (atPos : Nat)
deriving Repr, DecidableEq

/-- Start offset of a decoration's span (a widget insertion and a line
decoration are points). -/
def Deco.spanFrom : Deco → Nat
  | .replace f _ => f
  | .blockPill f _ _ _ => f
  | .tableWidget p _ => p
  | .mark _ f _ => f
  | .lineClass _ p => p

/-- End offset of a decoration's span. -/
def Deco.spanTo : Deco → Nat
  | .replace _ t => t
  | .blockPill _ t _ _ => t
  | .tableWidget p _ => p
  | .mark _ _ t => t
  | .lineClass _ p => p

/-- Ordering used by `Decoration.set(decos, true)`: by start offset
(ties keep emission order, the sort being stable). -/
def decoLE (a b : Deco) : Prop :=
  a.spanFrom ≤ b.spanFrom

instance : DecidableRel decoLE := fun a b => Nat.decLe a.spanFrom b.spanFrom

instance : IsTotal Deco decoLE := ⟨fun a b => Nat.le_total a.spanFrom b.spanFrom⟩

instance : IsTrans Deco decoLE := ⟨fun _ _ _ => Nat.le_trans⟩

/-- `Decoration.set(decos, true)`: the emitted decorations sorted by start
offset, stably. -/
def sortDecos (l : List Deco) : List Deco :=
  List.insertionSort decoLE l

/-- `labelFor` (livePreview.ts:140): the external label provider, falling
back to the raw id. -/
def labelFor (lbl : Option (List Char → List Char)) (id : List Char) : List Char :=
  match lbl with
  | some f => f id
  | none => id

/-- Decorations emitted for one inline-code match (livePreview.ts:261-282):
hide each backtick unless the selection intersects the full span; always
style the interior. -/
def codeDecosOfMatch (lf : Nat) (sel : Nat × Nat) (m : Nat × Nat) : List Deco :=
  let absFullStart := lf + m.1
  let absFullEnd := lf + m.2
  (if intersectsSelection absFullStart absFullEnd sel then []
   else [Deco.replace absFullStart (absFullStart + 1),
         Deco.replace (absFullEnd - 1) absFullEnd])
  ++ [Deco.mark "cm-live-code" (absFullStart + 1) (absFullEnd - 1)]

/-- Decorations emitted for one link match (livePreview.ts:288-338): when the
selection intersects the full span only the text is styled; otherwise the
four delimiters and the whole URL are hidden and the text is styled. -/
def linkDecosOfMatch (lf : Nat) (sel : Nat × Nat) (m : Nat × Nat × Nat) : List Deco :=
  let fullStart := m.1
  let t := m.2.1
  let u := m.2.2
  let absFullStart := lf + fullStart
  let absFullEnd := lf + fullStart + t + u + 4
  let absTextStart := lf + fullStart + 1
  let absTextEnd := absTextStart + t
  let absOpenBracket := absFullStart
  let absCloseBracket := absTextEnd
  let absOpenParen := absCloseBracket + 1
  let absUrlStart := absOpenParen + 1
  let absUrlEnd := absUrlStart + u
  let absCloseParen := absUrlEnd
  if intersectsSelection absFullStart absFullEnd sel then
    [Deco.mark "cm-live-link" absTextStart absTextEnd]
  else
    [Deco.replace absOpenBracket (absOpenBracket + 1),
     Deco.replace absCloseBracket (absCloseBracket + 1),
     Deco.replace absOpenParen (absOpenParen + 1),
     Deco.replace absUrlStart absUrlEnd,
     Deco.replace absCloseParen (absCloseParen + 1),
     Deco.mark "cm-live-link" absTextStart absTextEnd]

/-- Decorations emitted for one block-pill match (livePreview.ts:345-358):
nothing when the selection intersects the token, otherwise the whole token
is replaced by the pill widget. -/
def blockDecosOfMatch (lf : Nat) (sel : Nat × Nat) (lbl : Option (List Char → List Char))
    (m : Nat × List Char) : List Deco :=
  let start := lf + m.1
  let stop := start + 10 + m.2.length
  if intersectsSelection start stop sel then []
  else [Deco.blockPill start stop m.2 (labelFor lbl m.2)]

/-- Decorations emitted for the heading of a line (livePreview.ts:361-375):
the marker span is hidden unless the selection intersects the marker span
itself; the heading-depth line class is always attached. -/
def headingDecos (text : List Char) (lf : Nat) (sel : Nat × Nat) : List Deco :=
  match headingMatch text with
  | none => []
  | some (level, markerLen) =>
    (if intersectsSelection lf (lf + markerLen) sel then []
     else [Deco.replace lf (lf + markerLen)])
    ++ [Deco.lineClass ("cm-live-h cm-live-h" ++ toString level) lf]

/-- Decorations emitted for one bold match (livePreview.ts:382-404). -/
def boldDecosOfMatch (lf : Nat) (sel : Nat × Nat) (m : Nat × Nat) : List Deco :=
  let absFullStart := lf + m.1
  let absFullEnd := lf + m.2
  (if intersectsSelection absFullStart absFullEnd sel then []
   else [Deco.replace absFullStart (absFullStart + 2),
         Deco.replace (absFullEnd - 2) absFullEnd])
  ++ [Deco.mark "cm-live-bold" (absFullStart + 2) (absFullEnd - 2)]

/-- The bold spans recorded for the italic-exclusion check
(livePreview.ts:379, 393). -/
def boldRangesOf (text : List Char) (lf : Nat) : List (Nat × Nat) :=
  (boldScan text).map (fun m => (lf + m.1, lf + m.2))

/-- Decorations emitted for one italic match (livePreview.ts:408-434): a
match overlapping a recorded bold span is discarded; otherwise the two
one-character markers are hidden unless the selection intersects the full
span, and the interior is styled. -/
def italicDecosOfMatch (lf : Nat) (sel : Nat × Nat) (boldRanges : List (Nat × Nat))
    (m : Nat × Nat) : List Deco :=
  let absOpen := lf + m.1
  let absClose := lf + m.2
  let overlapsBold := boldRanges.any
    (fun r => !(decide (absClose + 1 ≤ r.1) || decide (absOpen ≥ r.2)))
  if overlapsBold then []
  else
    (if intersectsSelection absOpen (absClose + 1) sel then []
     else [Deco.replace absOpen (absOpen + 1), Deco.replace absClose (absClose + 1)])
    ++ [Deco.mark "cm-live-italic" (absOpen + 1) absClose]

/-- Decorations emitted for one strikethrough match (livePreview.ts:439-459). -/
def strikeDecosOfMatch (lf : Nat) (sel : Nat × Nat) (m : Nat × Nat) : List Deco :=
  let absFullStart := lf + m.1
  let absFullEnd := lf + m.2
  (if intersectsSelection absFullStart absFullEnd sel then []
   else [Deco.replace absFullStart (absFullStart + 2),
         Deco.replace (absFullEnd - 2) absFullEnd])
  ++ [Deco.mark "cm-live-strikethrough" (absFullStart + 2) (absFullEnd - 2)]

/-- Decorations emitted for one alignment-directive match
(livePreview.ts:464-476): the marker is always hidden — no selection check —
and a line-wide alignment class is attached. -/
def alignDecosOfMatch (lf : Nat) (m : Nat × String) : List Deco :=
  let start := lf + m.1
  let stop := start + 8 + m.2.length
  [Deco.replace start stop,
   Deco.lineClass ("cm-live-align-" ++ m.2) lf]

/-- All inline decorations of one non-table visible line, in the source's
pass order: inline code, links, block pills, heading, bold, italic (checked
against the recorded bold spans), strikethrough, alignment directives. -/
def lineDecosFor (text : List Char) (lf : Nat) (sel : Nat × Nat)
    (lbl : Option (List Char → List Char)) : List Deco :=
  (codeScan text).flatMap (codeDecosOfMatch lf sel)
  ++ (linkScan text).flatMap (linkDecosOfMatch lf sel)
  ++ (blockScan text).flatMap (blockDecosOfMatch lf sel lbl)
  ++ headingDecos text lf sel
  ++ (boldScan text).flatMap (boldDecosOfMatch lf sel)
  ++ (italicScan text).flatMap (italicDecosOfMatch lf sel (boldRangesOf text lf))
  ++ (strikeScan text).flatMap (strikeDecosOfMatch lf sel)
  ++ (alignScan text).flatMap (alignDecosOfMatch lf)

/-- Decorations of the table branch (livePreview.ts:217-244): a table widget
carrying the joined table lines inserted at the block's start position, then
one hiding replace per table line — all emitted regardless of the selection. -/
def tableBranchDecos (doc : List Char) (tb : TableBlockRange) : List Deco :=
  let tableLines := (List.range (tb.endLine + 1 - tb.startLine)).map
    (fun k => (lineGet doc (tb.startLine + k)).text)
  let tableMarkdown := List.intercalate ['\n'] tableLines
  Deco.tableWidget tb.startPos tableMarkdown
    :: (List.range (tb.endLine + 1 - tb.startLine)).map
        (fun k => Deco.replace (lineGet doc (tb.startLine + k)).fromPos
                               (lineGet doc (tb.startLine + k)).toPos)

/-- The per-line loop over one visible range (livePreview.ts:211-479): a line
starting a table block emits the table branch and skips to the block's last
line; otherwise the in-code-block line class is attached when the line lies
strictly inside a fenced region and does not itself start with a fence, and
all inline passes run. -/
def vrLoop (doc : List Char) (codeBlocks : List CodeBlockRange)
    (tableBlocks : List TableBlockRange) (sel : Nat × Nat)
    (lbl : Option (List Char → List Char)) : Nat → Nat → Nat → List Deco
  | 0, _, _ => []
  | fuel + 1, lineNo, toLineNo =>
    if lineNo > toLineNo then []
    else
      match tableBlocks.find? (fun t => decide (t.startLine = lineNo)) with
      | some tb =>
        tableBranchDecos doc tb
          ++ vrLoop doc codeBlocks tableBlocks sel lbl fuel (tb.endLine + 1) toLineNo
      | none =>
        let line := lineGet doc lineNo
        let inCodeBlock := codeBlocks.any
          (fun r => decide (r.startLine < lineNo) && decide (lineNo < r.endLine))
        (if inCodeBlock = true ∧ ¬ ("```".data).isPrefixOf line.text = true then
           [Deco.lineClass "cm-live-code-block" line.fromPos]
         else [])
        ++ lineDecosFor line.text line.fromPos sel lbl
        ++ vrLoop doc codeBlocks tableBlocks sel lbl fuel (lineNo + 1) toLineNo

/-- `buildDecorations` (livePreview.ts:136-483): the two whole-document
pre-scans, then the per-line passes over each visible range, then
`Decoration.set(decos, true)`. -/
def buildDecorations (doc : List Char) (visibleRanges : List (Nat × Nat))
    (sel : Nat × Nat) (lbl : Option (List Char → List Char)) : List Deco :=
  let codeBlocks := scanCodeBlocks doc
  let tableBlocks := scanTableBlocks doc
  let decos := visibleRanges.flatMap (fun vr =>
    let fromLine := lineAt doc vr.1
    let toLine := lineAt doc vr.2
    vrLoop doc codeBlocks tableBlocks sel lbl (toLine.num + 1) fromLine.num toLine.num)
  sortDecos decos

end LivePreview

namespace TableWidget

open LivePreview

/-- A rendered table cell: its text and the alignment class attached to it
(JavaScript `if (alignments[j])` attaches nothing when the column has no
recorded alignment). -/
structure RenderedCell where
  text : List Char
  alignClass : Option String
deriving Repr, DecidableEq

/-- A rendered table row: `header` is true when rendered as `th` cells. -/
structure RenderedRow where
  header : Bool
  cells : List RenderedCell
deriving Repr, DecidableEq

/-- `TableWidget.parseAlignment` (livePreview.ts:58-68). -/
def parseAlignment (separatorCell : List Char) : String :=
  let trimmed := jsTrim separatorCell
  let hasLeft := trimmed.head? = some ':'
  let hasRight := trimmed.getLast? = some ':'
  if hasLeft ∧ hasRight then "center"
  else if hasRight then "right"
  else if hasLeft then "left"
  else "left"

/-- The separator-cell pattern `/^:?-+:?$/` (livePreview.ts:97): an optional
leading colon, one or more dashes, an optional trailing colon. -/
def sepCell (cell : List Char) : Bool :=
  let cs1 := match cell with
    | ':' :: rest => rest
    | cs => cs
  let ds := cs1.takeWhile (fun d => d == '-')
  decide (0 < ds.length) &&
    (decide (cs1.drop ds.length = []) || decide (cs1.drop ds.length = [':']))

/-- Whether a parsed row is the separator row:
`row.every(cell => /^:?-+:?$/.test(cell))` (livePreview.ts:97). -/
def isSeparatorRow (row : List (List Char)) : Bool :=
  row.all sepCell

/-- Cell splitting of one table line (livePreview.ts:79-81): split on `|`,
trim every cell, and keep only the nonempty ones. -/
def cellsOfLine (line : List Char) : List (List Char) :=
  ((splitOnChar '|' line).map jsTrim).filter (fun cell => decide (0 < cell.length))

/-- Row parsing of the whole table text (livePreview.ts:74-85): trim, split
into lines, split each line into cells, keep rows with at least one cell. -/
def parseRows (tableMarkdown : List Char) : List (List (List Char)) :=
  ((splitLines (jsTrim tableMarkdown)).map cellsOfLine).filter
    (fun cells => decide (0 < cells.length))

/-- The inner cell loop of `TableWidget.toDOM` (livePreview.ts:105-116):
cell `j` gets the alignment class of column `j` when one is recorded
(JavaScript `alignments[j]` is `undefined`, hence falsy, past the end). -/
def renderCells : List (List Char) → List String → Nat → List RenderedCell
  | [], _, _ => []
  | cell :: rest, alignments, j =>
    ⟨cell, (alignments[j]?).map (fun a => "align-" ++ a)⟩
      :: renderCells rest alignments (j + 1)

/-- The rendering loop of `TableWidget.toDOM` (livePreview.ts:92-119): a
separator row records the alignments and is skipped; any other row is
rendered, as header exactly when its index is 0, each cell getting the
alignment class of its column when one is recorded. -/
def renderRows : List (List (List Char)) → Nat → List String → List RenderedRow
  | [], _, _ => []
  | row :: rest, i, alignments =>
    if isSeparatorRow row then
      renderRows rest (i + 1) (row.map parseAlignment)
    else
      ⟨decide (i = 0), renderCells row alignments 0⟩ :: renderRows rest (i + 1) alignments

/-- `TableWidget.toDOM` (livePreview.ts:70-123), abstracted to the list of
rendered rows (an empty list is the empty container). -/
def toDOM (tableMarkdown : List Char) : List RenderedRow :=
  renderRows (parseRows tableMarkdown) 0 []

end TableWidget

namespace LivePreview

/-- Reference rendering of "maximal runs": `runsFrom qs n` lists, as pairs of
1-based positions `(start, stop)`, the maximal runs of consecutive `true`
flags of `qs`, the head of `qs` being position `n`.  Used to state what the
table pre-scan computes. -/
def runsFrom (qs : List Bool) (n : Nat) : List (Nat × Nat) :=
  match qs with
  | [] => []
  | q :: rest =>
    if q then
      let k := (rest.takeWhile (fun b => b)).length
      (n, n + k) :: runsFrom (rest.drop k) (n + k + 1)
    else runsFrom rest (n + 1)
termination_by qs.length
decreasing_by
  · have := (List.takeWhile_prefix (l := rest) (fun b => b)).length_le
    simp only [List.length_drop, List.length_cons]
    omega
  · simp only [List.length_cons]
    omega

/-- Total extent in the document of a list of line texts: the characters of
each line plus one newline separator per line boundary, plus one (so that it
composes: `lineTotal ts = sum of lengths + ts.length`). -/
def lineTotal (ts : List (List Char)) : Nat :=
  (ts.map List.length).sum + ts.length

end LivePreview

namespace LivePreview

/-- Unfolding of the selection-visibility predicate into its arithmetic
content: the standard strict-overlap test on the two ranges. -/
theorem intersectsSelection_eq_true_iff (f t sf st : Nat) :
    intersectsSelection f t (sf, st) = true ↔ (sf < t ∧ f < st) := by
  simp only [intersectsSelection, Bool.not_eq_eq_eq_not, Bool.not_true,
    Bool.or_eq_false_iff, decide_eq_false_iff_not, not_le, ge_iff_le]

/-- Negative form of the unfolding. -/
theorem intersectsSelection_eq_false_iff (f t sf st : Nat) :
    intersectsSelection f t (sf, st) = false ↔ (t ≤ sf ∨ st ≤ f) := by
  rw [← Bool.not_eq_true, intersectsSelection_eq_true_iff]
  omega

/-- C1: the visibility predicate (`intersectsSelection`, the spec's
`shouldReveal`) is true exactly when the span and the selection's main range
overlap strictly: for nonempty span and selection this is nonempty
intersection of the half-open intervals; touching endpoints do not count; an
empty (cursor) selection counts exactly when it lies strictly inside the
span; in particular for a bold construct at `[10,15)` the predicate is false
for the empty selection `(0,0)` and true for the empty selection `(12,12)`. -/
theorem shouldReveal_iff_strict_overlap :
    (∀ f t sf st : Nat, f < t → sf < st →
      (intersectsSelection f t (sf, st) = true ↔
        ∃ x, f ≤ x ∧ x < t ∧ sf ≤ x ∧ x < st))
    ∧ (∀ f t p : Nat, intersectsSelection f t (p, p) = true ↔ f < p ∧ p < t)
    ∧ (∀ f t sf st : Nat, st ≤ f ∨ t ≤ sf → intersectsSelection f t (sf, st) = false)
    ∧ intersectsSelection 10 15 (0, 0) = false
    ∧ intersectsSelection 10 15 (12, 12) = true := by
  refine ⟨?_, ?_, ?_, by decide, by decide⟩
  · intro f t sf st hft hsfst
    rw [intersectsSelection_eq_true_iff]
    constructor
    · intro h
      exact ⟨max f sf, Nat.le_max_left _ _, by omega, Nat.le_max_right _ _, by omega⟩
    · rintro ⟨x, h1, h2, h3, h4⟩
      omega
  · intro f t p
    rw [intersectsSelection_eq_true_iff]
    omega
  · intro f t sf st h
    rw [intersectsSelection_eq_false_iff]
    omega

/-- Witness for C1: the characterizations applied at concrete inputs. -/
theorem shouldReveal_iff_strict_overlap_witness :
    intersectsSelection 3 7 (5, 9) = true ∧ intersectsSelection 4 6 (5, 5) = true :=
  ⟨(shouldReveal_iff_strict_overlap.1 3 7 5 9 (by decide) (by decide)).mpr
      ⟨5, by decide, by decide, by decide, by decide⟩,
   (shouldReveal_iff_strict_overlap.2.1 4 6 5).mpr ⟨by decide, by decide⟩⟩

/-- C10: the heading hide decision tests the selection against the marker
span only, not against the whole heading line: whenever the selection's main
range starts at or after the end of the marker (in particular whenever it
lies entirely within the heading's text), the marker hide decoration is
still emitted; and the heading-depth line style is emitted for every
selection. -/
theorem heading_hide_tests_marker_span_only :
    ∀ (text : List Char) (lf : Nat) (sel : Nat × Nat) (level markerLen : Nat),
      headingMatch text = some (level, markerLen) →
      (lf + markerLen ≤ sel.1 →
        Deco.replace lf (lf + markerLen) ∈ headingDecos text lf sel)
      ∧ Deco.lineClass ("cm-live-h cm-live-h" ++ toString level) lf
          ∈ headingDecos text lf sel := by
  intro text lf sel level markerLen h
  constructor
  · intro hsel
    have hfalse : intersectsSelection lf (lf + markerLen) sel = false := by
      obtain ⟨sf, st⟩ := sel
      rw [intersectsSelection_eq_false_iff]
      simp only at hsel
      omega
    simp [headingDecos, h, hfalse]
  · simp [headingDecos, h]

/-- Witness for C10 on the concrete heading line `"# a"` with the selection
`(2,3)` inside the heading text: marker hide and line style both emitted. -/
theorem heading_hide_tests_marker_span_only_witness :
    Deco.replace 0 2 ∈ headingDecos "# a".data 0 (2, 3)
    ∧ Deco.lineClass ("cm-live-h cm-live-h" ++ toString 1) 0
        ∈ headingDecos "# a".data 0 (2, 3) :=
  ⟨(heading_hide_tests_marker_span_only "# a".data 0 (2, 3) 1 2 (by decide)).1 (by decide),
   (heading_hide_tests_marker_span_only "# a".data 0 (2, 3) 1 2 (by decide)).2⟩

end LivePreview

namespace LivePreview

/-- C7: on the visible line `**a*b*c**` the bold detector finds exactly one
construct spanning all nine characters; when the selection does not
intersect it, its two markers are hidden and its interior styled; and the
italic pass emits no decoration at all (for every selection), because its
only single-star match overlaps the recorded bold span and is discarded. -/
theorem bold_italic_exclusion :
    boldScan "**a*b*c**".data = [(0, 9)]
    ∧ (∀ sel : Nat × Nat, intersectsSelection 0 9 sel = false →
        (boldScan "**a*b*c**".data).flatMap (boldDecosOfMatch 0 sel) =
          [Deco.replace 0 2, Deco.replace 7 9, Deco.mark "cm-live-bold" 2 7])
    ∧ (∀ sel : Nat × Nat,
        (italicScan "**a*b*c**".data).flatMap
          (italicDecosOfMatch 0 sel (boldRangesOf "**a*b*c**".data 0)) = []) := by
  refine ⟨by decide, ?_, ?_⟩
  · intro sel h
    have hb : boldScan "**a*b*c**".data = [(0, 9)] := by decide
    rw [hb]
    simp [boldDecosOfMatch, h]
  · intro sel
    have hi : italicScan "**a*b*c**".data = [(3, 5)] := by decide
    have hr : boldRangesOf "**a*b*c**".data 0 = [(0, 9)] := by decide
    rw [hi, hr]
    simp [italicDecosOfMatch]

/-- Witness for C7 at the concrete non-intersecting selection `(0,0)`. -/
theorem bold_italic_exclusion_witness :
    (boldScan "**a*b*c**".data).flatMap (boldDecosOfMatch 0 (0, 0)) =
      [Deco.replace 0 2, Deco.replace 7 9, Deco.mark "cm-live-bold" 2 7]
    ∧ (italicScan "**a*b*c**".data).flatMap
        (italicDecosOfMatch 0 (0, 0) (boldRangesOf "**a*b*c**".data 0)) = [] :=
  ⟨bold_italic_exclusion.2.1 (0, 0) (by decide), bold_italic_exclusion.2.2 (0, 0)⟩

/-- C3 fails on the code: the fenced-code pre-scan runs `/^```/` (no `m`
flag) against the text from the current scan position, so a fence that
starts a line but is not at the scan position itself is never found.  On
the document `"x\n```\na\n```"` — which has a line-start opening fence at
offset 2 closed by a line-start fence at offset 8 — the pre-scan records no
region at all. -/
theorem fence_scan_misses_fence_after_text :
    scanCodeBlocks "x\n```\na\n```".data = []
    ∧ ("```".data).isPrefixOf (("x\n```\na\n```".data).drop 2) = true
    ∧ ("x\n```\na\n```".data)[1]? = some '\n'
    ∧ ("```".data).isPrefixOf (("x\n```\na\n```".data).drop 8) = true
    ∧ ("x\n```\na\n```".data)[7]? = some '\n' := by decide

/-- Counterexample to C4: a document that is exactly an unterminated
line-start fence yields no recorded fenced-code region at all, although the
claim says the region is still recorded as extending to end-of-document. -/
theorem unterminated_fence_counterexample :
    scanCodeBlocks "```\ncode".data = []
    ∧ ("```".data).isPrefixOf ("```\ncode".data) = true := by decide

/-- C4 (amended): an unterminated fence does not raise an error — the scan
is total — but the fence is not recorded: whenever the scan position holds
an opening fence with no subsequent `"\n```"` closer, the scan stops and
returns no further region. -/
theorem unterminated_fence_not_recorded :
    ∀ (doc : List Char) (fuel searchPos : Nat),
      ("```".data).isPrefixOf (doc.drop searchPos) = true →
      findIndexOfPrefix ("\n```".data) (doc.drop (searchPos + 3)) = none →
      scanCodeBlocksAux doc fuel searchPos = [] := by
  intro doc fuel searchPos hpre hnone
  cases fuel with
  | zero => rfl
  | succ fuel =>
    have hlen : 3 ≤ (doc.drop searchPos).length :=
      (List.isPrefixOf_iff_prefix.mp hpre).length_le
    have hlt : searchPos < doc.length := by
      rw [List.length_drop] at hlen
      omega
    simp only [scanCodeBlocksAux, hlt, if_true, hpre, hnone]

/-- Witness for C4 at a concrete unterminated fence. -/
theorem unterminated_fence_not_recorded_witness :
    scanCodeBlocksAux "```ab".data 9 0 = [] :=
  unterminated_fence_not_recorded "```ab".data 9 0 (by decide) (by decide)

end LivePreview

namespace LivePreview

/-- Counterexample to C2: on the document `"[align-left]"` the alignment
directive's full span is `[0,12)` and the selection `(2,3)` intersects it,
yet the hide decoration over the whole directive is still emitted — the
alignment pass performs no selection check, so "markers visible iff the
selection intersects the construct's span" fails. -/
theorem alignment_hidden_despite_selection :
    intersectsSelection 0 12 (2, 3) = true
    ∧ alignScan "[align-left]".data = [(0, "left")]
    ∧ Deco.replace 0 12 ∈ buildDecorations "[align-left]".data [(0, 12)] (2, 3) none := by
  decide

/-- C2 (amended): for inline code, links, block references, bold, italic
(once it survives the bold-overlap check) and strikethrough, the construct's
hide decorations are emitted if and only if the selection's main range does
not intersect the construct's full span; for headings the same rule applies
but the span tested is the marker span; alignment directives and table
lines, however, are hidden unconditionally, whatever the selection. -/
theorem markers_hidden_iff_selection_misses_span :
    (∀ (lf : Nat) (sel : Nat × Nat) (m : Nat × Nat),
      Deco.replace (lf + m.1) (lf + m.1 + 1) ∈ codeDecosOfMatch lf sel m
        ↔ intersectsSelection (lf + m.1) (lf + m.2) sel = false)
    ∧ (∀ (lf : Nat) (sel : Nat × Nat) (m : Nat × Nat × Nat),
      Deco.replace (lf + m.1) (lf + m.1 + 1) ∈ linkDecosOfMatch lf sel m
        ↔ intersectsSelection (lf + m.1) (lf + m.1 + m.2.1 + m.2.2 + 4) sel = false)
    ∧ (∀ (lf : Nat) (sel : Nat × Nat) (lbl : Option (List Char → List Char))
        (m : Nat × List Char),
      Deco.blockPill (lf + m.1) (lf + m.1 + 10 + m.2.length) m.2 (labelFor lbl m.2)
          ∈ blockDecosOfMatch lf sel lbl m
        ↔ intersectsSelection (lf + m.1) (lf + m.1 + 10 + m.2.length) sel = false)
    ∧ (∀ (text : List Char) (lf : Nat) (sel : Nat × Nat) (level markerLen : Nat),
      headingMatch text = some (level, markerLen) →
      (Deco.replace lf (lf + markerLen) ∈ headingDecos text lf sel
        ↔ intersectsSelection lf (lf + markerLen) sel = false))
    ∧ (∀ (lf : Nat) (sel : Nat × Nat) (m : Nat × Nat),
      Deco.replace (lf + m.1) (lf + m.1 + 2) ∈ boldDecosOfMatch lf sel m
        ↔ intersectsSelection (lf + m.1) (lf + m.2) sel = false)
    ∧ (∀ (lf : Nat) (sel : Nat × Nat) (boldRanges : List (Nat × Nat)) (m : Nat × Nat),
      (boldRanges.any
        (fun r => !(decide (lf + m.2 + 1 ≤ r.1) || decide (lf + m.1 ≥ r.2)))) = false →
      (Deco.replace (lf + m.1) (lf + m.1 + 1) ∈ italicDecosOfMatch lf sel boldRanges m
        ↔ intersectsSelection (lf + m.1) (lf + m.2 + 1) sel = false))
    ∧ (∀ (lf : Nat) (sel : Nat × Nat) (m : Nat × Nat),
      Deco.replace (lf + m.1) (lf + m.1 + 2) ∈ strikeDecosOfMatch lf sel m
        ↔ intersectsSelection (lf + m.1) (lf + m.2) sel = false)
    ∧ (∀ (lf : Nat) (m : Nat × String),
      Deco.replace (lf + m.1) (lf + m.1 + 8 + m.2.length) ∈ alignDecosOfMatch lf m)
    ∧ (∀ (doc : List Char) (tb : TableBlockRange) (k : Nat),
      k < tb.endLine + 1 - tb.startLine →
      Deco.replace (lineGet doc (tb.startLine + k)).fromPos
          (lineGet doc (tb.startLine + k)).toPos ∈ tableBranchDecos doc tb) := by
  refine ⟨?_, ?_, ?_, ?_, ?_, ?_, ?_, ?_, ?_⟩
  · intro lf sel m
    cases h : intersectsSelection (lf + m.1) (lf + m.2) sel <;> simp [codeDecosOfMatch, h]
  · intro lf sel m
    cases h : intersectsSelection (lf + m.1) (lf + m.1 + m.2.1 + m.2.2 + 4) sel <;>
      simp [linkDecosOfMatch, h]
  · intro lf sel lbl m
    cases h : intersectsSelection (lf + m.1) (lf + m.1 + 10 + m.2.length) sel <;>
      simp [blockDecosOfMatch, h]
  · intro text lf sel level markerLen hm
    cases h : intersectsSelection lf (lf + markerLen) sel <;> simp [headingDecos, hm, h]
  · intro lf sel m
    cases h : intersectsSelection (lf + m.1) (lf + m.2) sel <;> simp [boldDecosOfMatch, h]
  · intro lf sel boldRanges m hov
    cases h : intersectsSelection (lf + m.1) (lf + m.2 + 1) sel <;>
      simp only [italicDecosOfMatch, hov, h] <;> simp
  · intro lf sel m
    cases h : intersectsSelection (lf + m.1) (lf + m.2) sel <;> simp [strikeDecosOfMatch, h]
  · intro lf m
    simp [alignDecosOfMatch]
  · intro doc tb k hk
    simp only [tableBranchDecos, List.mem_cons, List.mem_map, List.mem_range]
    exact Or.inr ⟨k, hk, rfl⟩

/-- Witness for C2 (amended) at concrete inputs: the heading conjunct on the
line `"# a"` with the selection `(2,3)`, and the italic conjunct with no
recorded bold span. -/
theorem markers_hidden_iff_selection_misses_span_witness :
    (Deco.replace 0 2 ∈ headingDecos "# a".data 0 (2, 3)
      ↔ intersectsSelection 0 2 (2, 3) = false)
    ∧ (Deco.replace 3 4 ∈ italicDecosOfMatch 0 (0, 0) [] (3, 5)
      ↔ intersectsSelection 3 6 (0, 0) = false) :=
  ⟨markers_hidden_iff_selection_misses_span.2.2.2.1 "# a".data 0 (2, 3) 1 2 (by decide),
   markers_hidden_iff_selection_misses_span.2.2.2.2.2.1 0 (0, 0) [] (3, 5) (by decide)⟩

end LivePreview

namespace LivePreview

/-- C8: rebuilding is deterministic and idempotent — the engine is a pure
function of (document, visible ranges, selection, label provider), so two
invocations on identical inputs produce the identical decoration list, and
re-applying the assembler's sort to an already produced decoration set
leaves it unchanged (the set is already ordered). -/
theorem buildDecorations_deterministic_idempotent :
    (∀ (doc : List Char) (visibleRanges : List (Nat × Nat)) (sel : Nat × Nat)
        (lbl : Option (List Char → List Char)),
      buildDecorations doc visibleRanges sel lbl = buildDecorations doc visibleRanges sel lbl)
    ∧ (∀ (doc : List Char) (visibleRanges : List (Nat × Nat)) (sel : Nat × Nat)
        (lbl : Option (List Char → List Char)),
      sortDecos (buildDecorations doc visibleRanges sel lbl)
        = buildDecorations doc visibleRanges sel lbl) := by
  refine ⟨fun _ _ _ _ => rfl, fun doc vrs sel lbl => ?_⟩
  have h : List.Sorted decoLE (buildDecorations doc vrs sel lbl) := by
    unfold buildDecorations sortDecos
    exact List.sorted_insertionSort decoLE _
  exact h.insertionSort_eq

end LivePreview

namespace TableWidget

open LivePreview

/-- The text of each rendered cell is the parsed cell it came from. -/
theorem renderCells_map_text :
    ∀ (row : List (List Char)) (al : List String) (j : Nat),
      (renderCells row al j).map RenderedCell.text = row := by
  intro row
  induction row with
  | nil => intro al j; rfl
  | cons cell rest ih =>
    intro al j
    simp [renderCells, ih]

/-- Rows rendered from index 1 onwards are never header rows. -/
theorem renderRows_header_false :
    ∀ (rows : List (List (List Char))) (i : Nat) (al : List String),
      0 < i → ∀ r ∈ renderRows rows i al, r.header = false := by
  intro rows
  induction rows with
  | nil => intro i al hi r hr; simp [renderRows] at hr
  | cons row rest ih =>
    intro i al hi r hr
    by_cases hsep : isSeparatorRow row
    · rw [renderRows, if_pos hsep] at hr
      exact ih (i + 1) (row.map parseAlignment) (by omega) r hr
    · rw [renderRows, if_neg hsep] at hr
      rcases List.mem_cons.mp hr with h | h
      · subst h; simp; omega
      · exact ih (i + 1) al (by omega) r h

/-- Every rendered row is the image of a non-separator parsed row. -/
theorem renderRows_sources :
    ∀ (rows : List (List (List Char))) (i : Nat) (al : List String) (r : RenderedRow),
      r ∈ renderRows rows i al →
      ∃ row ∈ rows, isSeparatorRow row = false ∧ r.cells.map RenderedCell.text = row := by
  intro rows
  induction rows with
  | nil => intro i al r hr; simp [renderRows] at hr
  | cons row rest ih =>
    intro i al r hr
    by_cases hsep : isSeparatorRow row
    · rw [renderRows, if_pos hsep] at hr
      obtain ⟨row', hmem, hs, ht⟩ := ih (i + 1) (row.map parseAlignment) r hr
      exact ⟨row', List.mem_cons_of_mem _ hmem, hs, ht⟩
    · rw [renderRows, if_neg hsep] at hr
      rcases List.mem_cons.mp hr with h | h
      · subst h
        exact ⟨row, List.mem_cons_self _ _,
          Bool.eq_false_iff.mpr hsep, renderCells_map_text row al 0⟩
      · obtain ⟨row', hmem, hs, ht⟩ := ih (i + 1) al r h
        exact ⟨row', List.mem_cons_of_mem _ hmem, hs, ht⟩

/-- Counterexample to C6: the row `"| a |  | b |"` has an interior empty
cell, yet the widget's cell splitting drops every empty cell (not only the
leading and trailing ones), so the rendered row has the two cells `a`, `b`
instead of the three cells `a`, (empty), `b` the claim requires. -/
theorem table_interior_empty_cell_dropped :
    cellsOfLine "| a |  | b |".data = ["a".data, "b".data]
    ∧ toDOM "| a |  | b |".data
        = [⟨true, [⟨"a".data, none⟩, ⟨"b".data, none⟩]⟩] := by decide

/-- C6 (amended): rows split on line boundaries and cells on `|`, every cell
trimmed and every empty cell dropped (interior ones included), rows left
with no cells skipped; a row whose cells all match the alignment pattern is
consumed as the separator and never rendered, (re)setting the per-column
alignments; alignment is center for colons on both sides, right for a colon
only on the right, left otherwise; only the parsed row at index 0 can be the
header (a first-row separator leaves the table without a header row); the
worked three-line example renders as claimed; and a table with no parsed
rows renders an empty container. -/
theorem tableWidget_parse_render_properties :
    (∀ (line cell : List Char), cell ∈ cellsOfLine line → 0 < cell.length)
    ∧ (∀ (md : List Char) (r : RenderedRow), r ∈ toDOM md →
        isSeparatorRow (r.cells.map RenderedCell.text) = false)
    ∧ (∀ (md : List Char) (r : RenderedRow), r ∈ toDOM md → r.header = true →
        ∃ row rest, parseRows md = row :: rest ∧ isSeparatorRow row = false
          ∧ r.cells.map RenderedCell.text = row ∧ (toDOM md).head? = some r)
    ∧ (∀ (rows : List (List (List Char))) (i : Nat) (al : List String)
        (row : List (List Char)), isSeparatorRow row = true →
        renderRows (row :: rows) i al = renderRows rows (i + 1) (row.map parseAlignment))
    ∧ (∀ c : List Char,
        ((jsTrim c).head? = some ':' → (jsTrim c).getLast? = some ':' →
          parseAlignment c = "center")
        ∧ ((jsTrim c).getLast? = some ':' → (jsTrim c).head? ≠ some ':' →
          parseAlignment c = "right")
        ∧ ((jsTrim c).getLast? ≠ some ':' → parseAlignment c = "left"))
    ∧ (∀ md : List Char, parseRows md = [] → toDOM md = [])
    ∧ toDOM "| H1 | H2 |\n| :--- | ---: |\n| a | b |".data
        = [⟨true, [⟨"H1".data, none⟩, ⟨"H2".data, none⟩]⟩,
           ⟨false, [⟨"a".data, some "align-left"⟩, ⟨"b".data, some "align-right"⟩]⟩]
    ∧ toDOM "".data = [] := by
  refine ⟨?_, ?_, ?_, ?_, ?_, ?_, by decide, by decide⟩
  · intro line cell hc
    have := List.of_mem_filter hc
    simpa using this
  · intro md r hr
    obtain ⟨row, _, hs, ht⟩ := renderRows_sources (parseRows md) 0 [] r hr
    rw [ht]
    exact hs
  · intro md r hr hh
    unfold toDOM at hr ⊢
    cases hp : parseRows md with
    | nil => rw [hp] at hr; simp [renderRows] at hr
    | cons row rest =>
      rw [hp] at hr
      by_cases hsep : isSeparatorRow row
      · rw [renderRows, if_pos hsep] at hr
        have := renderRows_header_false rest 1 (row.map parseAlignment) (by omega) r hr
        rw [hh] at this
        exact absurd this (by simp)
      · rw [renderRows, if_neg hsep] at hr
        rcases List.mem_cons.mp hr with h | h
        · refine ⟨row, rest, rfl, Bool.eq_false_iff.mpr hsep, ?_, ?_⟩
          · rw [h]; exact renderCells_map_text row [] 0
          · rw [renderRows, if_neg hsep, h]; rfl
        · have := renderRows_header_false rest 1 [] (by omega) r h
          rw [hh] at this
          exact absurd this (by simp)
  · intro rows i al row hsep
    rw [renderRows, if_pos hsep]
  · intro c
    refine ⟨?_, ?_, ?_⟩
    · intro h1 h2; simp [parseAlignment, h1, h2]
    · intro h1 h2; simp [parseAlignment, h1, h2]
    · intro h1
      by_cases h2 : (jsTrim c).head? = some ':' <;> simp [parseAlignment, h1, h2]
  · intro md hp
    unfold toDOM
    rw [hp]
    rfl

/-- Witness for C6 (amended) at concrete inputs: a cell of a concrete line,
the alignment rules on the cell `":-:"`, and the empty-table case. -/
theorem tableWidget_parse_render_properties_witness :
    0 < "a".data.length
    ∧ parseAlignment ":-:".data = "center"
    ∧ toDOM "|".data = [] :=
  ⟨tableWidget_parse_render_properties.1 "| a |".data "a".data (by decide),
   (tableWidget_parse_render_properties.2.2.2.2.1 ":-:".data).1 (by decide) (by decide),
   tableWidget_parse_render_properties.2.2.2.2.2.1 "|".data (by decide)⟩

end TableWidget

namespace LivePreview

/-- The text recorded for line index `j` is the `j`-th split line. -/
theorem mkLineInfos_getD_text :
    ∀ (ts : List (List Char)) (pos num j : Nat),
      ((mkLineInfos ts pos num).getD j defaultLine).text = ts.getD j [] := by
  intro ts
  induction ts with
  | nil => intro pos num j; simp [mkLineInfos, defaultLine]
  | cons t rest ih =>
    intro pos num j
    cases j with
    | zero => rfl
    | succ j => simp only [mkLineInfos, List.getD_cons_succ, ih]

/-- The text of `doc.line(n)` is split line `n - 1`. -/
theorem lineGet_text (doc : List Char) (n : Nat) :
    (lineGet doc n).text = (splitLines doc).getD (n - 1) [] :=
  mkLineInfos_getD_text (splitLines doc) 0 1 (n - 1)

/-- Characterization of the inner `while` of the table pre-scan: with enough
fuel it returns the current line number plus the number of consecutive
following lines that are table rows. -/
theorem tableEndLineAux_eq :
    ∀ (doc : List Char) (fuel t : Nat), numLines doc ≤ t + fuel →
      tableEndLineAux doc fuel t
        = t + ((((splitLines doc).drop t).map isTableRow).takeWhile (fun b => b)).length := by
  intro doc fuel
  induction fuel with
  | zero =>
    intro t ht
    have hdrop : (splitLines doc).drop t = [] :=
      List.drop_eq_nil_iff.mpr (by simpa [numLines] using ht)
    simp [tableEndLineAux, hdrop]
  | succ fuel ih =>
    intro t ht
    by_cases hlt : t < numLines doc
    · have hlt' : t < (splitLines doc).length := by simpa [numLines] using hlt
      have hcons : (splitLines doc).drop t
          = (splitLines doc)[t] :: (splitLines doc).drop (t + 1) :=
        List.drop_eq_getElem_cons hlt'
      have hflag : isTableRow (lineGet doc (t + 1)).text = isTableRow (splitLines doc)[t] := by
        rw [lineGet_text]
        congr 1
        simp only [Nat.add_sub_cancel]
        rw [List.getD_eq_getElem?_getD, List.getElem?_eq_getElem hlt']
        rfl
      cases hq : isTableRow (splitLines doc)[t] with
      | true =>
        rw [tableEndLineAux, if_pos ⟨hlt, by rw [hflag]; exact hq⟩, ih (t + 1) (by omega), hcons]
        simp only [List.map_cons, hq]
        rw [List.takeWhile_cons_of_pos (by rfl)]
        simp only [List.length_cons]
        omega
      | false =>
        rw [tableEndLineAux, if_neg ?hneg, hcons]
        case hneg =>
          rintro ⟨-, hb⟩
          rw [hflag, hq] at hb
          exact Bool.false_ne_true hb
        simp [List.takeWhile_cons, hq]
    · have hdrop : (splitLines doc).drop t = [] :=
        List.drop_eq_nil_iff.mpr (by simp only [numLines] at hlt; omega)
      rw [tableEndLineAux, if_neg (fun h => hlt h.1)]
      simp [hdrop]

/-- The table pre-scan computes exactly the maximal runs of consecutive
table-row lines: with enough fuel, the recorded `(startLine, endLine)`
pairs from position `n` are the maximal runs of the table-row flags of the
remaining lines. -/
theorem scanTableBlocksAux_eq_runsFrom :
    ∀ (doc : List Char) (fuel n : Nat), 1 ≤ n → numLines doc + 1 ≤ n + fuel →
      (scanTableBlocksAux doc fuel n).map (fun tb => (tb.startLine, tb.endLine))
        = runsFrom (((splitLines doc).drop (n - 1)).map isTableRow) n := by
  intro doc fuel
  induction fuel with
  | zero =>
    intro n h1 h2
    have hdrop : (splitLines doc).drop (n - 1) = [] :=
      List.drop_eq_nil_iff.mpr (by simp only [numLines] at h2; omega)
    simp [scanTableBlocksAux, hdrop, runsFrom]
  | succ fuel ih =>
    intro n h1 h2
    by_cases hle : n ≤ numLines doc
    · have hlt' : n - 1 < (splitLines doc).length := by simp only [numLines] at hle; omega
      have hcons : (splitLines doc).drop (n - 1)
          = (splitLines doc)[n - 1] :: (splitLines doc).drop n := by
        have h := List.drop_eq_getElem_cons hlt'
        rwa [Nat.sub_add_cancel h1] at h
      have hflag : isTableRow (lineGet doc n).text = isTableRow (splitLines doc)[n - 1] := by
        rw [lineGet_text]
        congr 1
        rw [List.getD_eq_getElem?_getD, List.getElem?_eq_getElem hlt']
        rfl
      rw [hcons]
      cases hq : isTableRow (splitLines doc)[n - 1] with
      | false =>
        rw [scanTableBlocksAux, if_pos hle, if_neg ?hneg]
        case hneg =>
          intro hb
          rw [hflag, hq] at hb
          exact Bool.false_ne_true hb
        rw [runsFrom.eq_def]
        simp only [List.map_cons, hq, Bool.false_eq_true, if_false]
        have h := ih (n + 1) (by omega) (by omega)
        simpa [Nat.add_sub_cancel] using h
      | true =>
        have htend : tableEndLineAux doc (numLines doc) n
            = n + ((((splitLines doc).drop n).map isTableRow).takeWhile (fun b => b)).length :=
          tableEndLineAux_eq doc (numLines doc) n (by omega)
        rw [scanTableBlocksAux, if_pos hle, if_pos (by rw [hflag]; exact hq)]
        rw [runsFrom.eq_def]
        simp only [List.map_cons, hq, if_pos rfl, htend]
        congr 1
        have h := ih (n + ((((splitLines doc).drop n).map isTableRow).takeWhile
            (fun b => b)).length + 1) (by omega) ?hfuel
        case hfuel =>
          have hk := (List.takeWhile_prefix
            (l := ((splitLines doc).drop n).map isTableRow) (fun b => b)).length_le
          omega
        rw [h]
        congr 1
        rw [Nat.add_sub_cancel, List.map_drop, List.map_drop, List.drop_drop]
    · rw [scanTableBlocksAux, if_neg hle]
      have hdrop : (splitLines doc).drop (n - 1) = [] :=
        List.drop_eq_nil_iff.mpr (by simp only [numLines] at hle; omega)
      simp [hdrop, runsFrom]

/-- The recorded start and end positions of every table region are the
`from` of its start line and the `to` of its end line. -/
theorem scanTableBlocksAux_pos :
    ∀ (doc : List Char) (fuel n : Nat) (tb : TableBlockRange),
      tb ∈ scanTableBlocksAux doc fuel n →
      tb.startPos = (lineGet doc tb.startLine).fromPos
      ∧ tb.endPos = (lineGet doc tb.endLine).toPos := by
  intro doc fuel
  induction fuel with
  | zero => intro n tb htb; simp [scanTableBlocksAux] at htb
  | succ fuel ih =>
    intro n tb htb
    rw [scanTableBlocksAux] at htb
    by_cases hle : n ≤ numLines doc
    · rw [if_pos hle] at htb
      by_cases hrow : isTableRow (lineGet doc n).text
      · rw [if_pos hrow] at htb
        rcases List.mem_cons.mp htb with h | h
        · subst h; exact ⟨rfl, rfl⟩
        · exact ih _ tb h
      · rw [if_neg hrow] at htb
        exact ih _ tb htb
    · rw [if_neg hle] at htb
      simp at htb

/-- Counterexample to C5: the line `"a | b | c"` has (after trimming) two
pipe characters, so the claim's predicate qualifies it as a table row, but
the code additionally requires the trimmed line to start with a pipe, so no
table-block region is recorded. -/
theorem table_row_needs_leading_pipe :
    scanTableBlocks "a | b | c".data = []
    ∧ 2 ≤ countPipes (jsTrim "a | b | c".data) := by decide

/-- C5 (amended): a line qualifies as a table row iff its trimmed text
starts with a pipe AND the line contains at least two pipe characters
(`isTableRow`); the pre-scan's regions are exactly the maximal runs of
consecutive qualifying lines, each region's start and end positions being
the start of its first and the end of its last line. -/
theorem tableBlocks_are_maximal_pipe_runs :
    ∀ doc : List Char,
      (scanTableBlocks doc).map (fun tb => (tb.startLine, tb.endLine))
        = runsFrom ((splitLines doc).map isTableRow) 1
      ∧ ∀ tb ∈ scanTableBlocks doc,
          tb.startPos = (lineGet doc tb.startLine).fromPos
          ∧ tb.endPos = (lineGet doc tb.endLine).toPos := by
  intro doc
  constructor
  · have h := scanTableBlocksAux_eq_runsFrom doc (numLines doc + 1) 1 (Nat.le_refl 1) (by omega)
    simpa [scanTableBlocks] using h
  · intro tb htb
    exact scanTableBlocksAux_pos doc (numLines doc + 1) 1 tb htb

/-- Witness for C5 (amended) on a concrete two-line table. -/
theorem tableBlocks_are_maximal_pipe_runs_witness :
    (scanTableBlocks "| a | b |\nx".data).map (fun tb => (tb.startLine, tb.endLine))
      = runsFrom ((splitLines "| a | b |\nx".data).map isTableRow) 1
    ∧ (⟨1, 1, 0, 9⟩ : TableBlockRange).startPos
        = (lineGet "| a | b |\nx".data 1).fromPos :=
  ⟨(tableBlocks_are_maximal_pipe_runs "| a | b |\nx".data).1,
   ((tableBlocks_are_maximal_pipe_runs "| a | b |\nx".data).2 ⟨1, 1, 0, 9⟩ (by decide)).1⟩

end LivePreview

namespace LivePreview

/-- Splitting accounts for every character plus one separator per boundary. -/
theorem splitOnCharAux_lineTotal (sep : Char) :
    ∀ (cs acc : List Char),
      lineTotal (splitOnCharAux sep cs acc) = acc.length + cs.length + 1 := by
  intro cs
  induction cs with
  | nil => intro acc; simp [splitOnCharAux, lineTotal]
  | cons c rest ih =>
    intro acc
    by_cases h : c = sep
    · rw [splitOnCharAux, if_pos h]
      have h2 := ih []
      simp only [lineTotal, List.map_cons, List.sum_cons, List.length_cons,
        List.length_reverse, List.length_nil] at h2 ⊢
      omega
    · rw [splitOnCharAux, if_neg h]
      have h2 := ih (c :: acc)
      simp only [List.length_cons] at h2 ⊢
      omega

/-- Every line built by `mkLineInfos` spans its text and stays within the
extent of the given texts. -/
theorem mkLineInfos_mem_bounds :
    ∀ (ts : List (List Char)) (pos num : Nat) (l : LineInfo),
      l ∈ mkLineInfos ts pos num →
      l.fromPos + l.text.length = l.toPos ∧ l.toPos + 1 ≤ pos + lineTotal ts := by
  intro ts
  induction ts with
  | nil => intro pos num l hl; simp [mkLineInfos] at hl
  | cons t rest ih =>
    intro pos num l hl
    rcases List.mem_cons.mp hl with h | h
    · subst h
      refine ⟨rfl, ?_⟩
      simp only [lineTotal, List.map_cons, List.sum_cons, List.length_cons]
      omega
    · obtain ⟨h1, h2⟩ := ih (pos + t.length + 1) (num + 1) l h
      refine ⟨h1, ?_⟩
      simp only [lineTotal, List.map_cons, List.sum_cons, List.length_cons] at h2 ⊢
      omega

/-- Every document line spans its text and lies within the document. -/
theorem docLines_mem_bounds :
    ∀ (doc : List Char) (l : LineInfo), l ∈ docLines doc →
      l.fromPos + l.text.length = l.toPos ∧ l.toPos ≤ doc.length := by
  intro doc l hl
  obtain ⟨h1, h2⟩ := mkLineInfos_mem_bounds (splitLines doc) 0 1 l hl
  refine ⟨h1, ?_⟩
  have h3 := splitOnCharAux_lineTotal '\n' doc []
  simp only [List.length_nil] at h3
  have : lineTotal (splitLines doc) = doc.length + 1 := by
    simpa [splitLines, splitOnChar] using h3
  omega

/-- `doc.line(n)` spans its text and lies within the document, for every
line number (the placeholder line is degenerate at offset 0). -/
theorem lineGet_bounds (doc : List Char) (n : Nat) :
    (lineGet doc n).fromPos + (lineGet doc n).text.length = (lineGet doc n).toPos
    ∧ (lineGet doc n).toPos ≤ doc.length := by
  unfold lineGet
  rw [List.getD_eq_getElem?_getD]
  cases h : (docLines doc)[n - 1]? with
  | none => simp [defaultLine]
  | some l =>
    simp only [Option.getD_some]
    exact docLines_mem_bounds doc l (List.getElem?_mem h)

/-- A found prefix occurrence fits inside the list. -/
theorem findIndexOfPrefix_bounds (pat : List Char) :
    ∀ (cs : List Char) (j : Nat), findIndexOfPrefix pat cs = some j →
      j + pat.length ≤ cs.length := by
  intro cs
  induction cs with
  | nil =>
    intro j h
    rw [findIndexOfPrefix] at h
    by_cases hp : pat.isPrefixOf ([] : List Char)
    · rw [if_pos hp] at h
      cases h
      have := (List.isPrefixOf_iff_prefix.mp hp).length_le
      simpa using this
    · rw [if_neg hp] at h
      cases h
  | cons c rest ih =>
    intro j h
    rw [findIndexOfPrefix] at h
    by_cases hp : pat.isPrefixOf (c :: rest)
    · rw [if_pos hp] at h
      cases h
      have := (List.isPrefixOf_iff_prefix.mp hp).length_le
      simpa using this
    · rw [if_neg hp] at h
      cases h2 : findIndexOfPrefix pat rest with
      | none => rw [h2] at h; cases h
      | some j' =>
        rw [h2] at h
        cases h
        have := ih j' h2
        simp only [List.length_cons]
        omega

end LivePreview

namespace LivePreview

/-- Every inline-code match starts at or after the scan position, has at
least one interior character, and ends within the text. -/
theorem codeScanAux_bounds :
    ∀ (fuel : Nat) (cs : List Char) (i s e : Nat), (s, e) ∈ codeScanAux fuel cs i →
      i ≤ s ∧ s + 3 ≤ e ∧ e ≤ i + cs.length := by
  intro fuel
  induction fuel with
  | zero => intro cs i s e h; simp [codeScanAux] at h
  | succ fuel ih =>
    intro cs i s e h
    cases cs with
    | nil => simp [codeScanAux] at h
    | cons c rest =>
      rw [codeScanAux] at h
      by_cases hc : c = '\x60'
      case neg =>
        rw [if_neg hc] at h
        have h3 := ih rest (i + 1) s e h
        simp only [List.length_cons]
        omega
      case pos =>
        rw [if_pos hc] at h
        set k := (rest.takeWhile (fun d => !(d == '\x60' || d == '\n'))).length with hk
        by_cases hcond : 0 < k ∧ rest[k]? = some '\x60'
        case neg =>
          rw [if_neg hcond] at h
          have h3 := ih rest (i + 1) s e h
          simp only [List.length_cons]
          omega
        case pos =>
          rw [if_pos hcond] at h
          obtain ⟨hk1, hk2⟩ := hcond
          have hklt : k < rest.length := by
            rcases List.getElem?_eq_some_iff.mp hk2 with ⟨hlt, -⟩
            exact hlt
          rcases List.mem_cons.mp h with heq | hmem
          · rw [Prod.mk.injEq] at heq
            simp only [List.length_cons]
            omega
          · have h3 := ih _ _ s e hmem
            rw [List.length_drop] at h3
            simp only [List.length_cons]
            omega

/-- Every link match starts at or after the scan position, has nonempty text
and URL parts, and ends within the text. -/
theorem linkScanAux_bounds :
    ∀ (fuel : Nat) (cs : List Char) (i fs t u : Nat), (fs, t, u) ∈ linkScanAux fuel cs i →
      i ≤ fs ∧ 1 ≤ t ∧ 1 ≤ u ∧ fs + t + u + 4 ≤ i + cs.length := by
  intro fuel
  induction fuel with
  | zero => intro cs i fs t u h; simp [linkScanAux] at h
  | succ fuel ih =>
    intro cs i fs t u h
    cases cs with
    | nil => simp [linkScanAux] at h
    | cons c rest =>
      rw [linkScanAux] at h
      by_cases hc : c = '['
      case neg =>
        rw [if_neg hc] at h
        have h3 := ih rest (i + 1) fs t u h
        simp only [List.length_cons]
        omega
      case pos =>
        rw [if_pos hc] at h
        set tl := (rest.takeWhile (fun d => !(d == ']' || d == '\n'))).length with htl
        by_cases hcond : 0 < tl ∧ rest[tl]? = some ']' ∧ rest[tl + 1]? = some '('
        case neg =>
          rw [if_neg hcond] at h
          have h3 := ih rest (i + 1) fs t u h
          simp only [List.length_cons]
          omega
        case pos =>
          rw [if_pos hcond] at h
          obtain ⟨ht1, ht2, ht3⟩ := hcond
          have htlt : tl + 1 < rest.length := by
            rcases List.getElem?_eq_some_iff.mp ht3 with ⟨hlt, -⟩
            exact hlt
          set ul := ((rest.drop (tl + 2)).takeWhile (fun d => !(d == ')' || d == '\n'))).length
            with hul
          by_cases hcond2 : 0 < ul ∧ (rest.drop (tl + 2))[ul]? = some ')'
          case neg =>
            rw [if_neg hcond2] at h
            have h3 := ih rest (i + 1) fs t u h
            simp only [List.length_cons]
            omega
          case pos =>
            rw [if_pos hcond2] at h
            obtain ⟨hu1, hu2⟩ := hcond2
            have hult : ul < (rest.drop (tl + 2)).length := by
              rcases List.getElem?_eq_some_iff.mp hu2 with ⟨hlt, -⟩
              exact hlt
            rw [List.length_drop] at hult
            rcases List.mem_cons.mp h with heq | hmem
            · rw [Prod.mk.injEq] at heq
              obtain ⟨heq1, heq2⟩ := heq
              rw [Prod.mk.injEq] at heq2
              simp only [List.length_cons]
              omega
            · have h3 := ih _ _ fs t u hmem
              rw [List.length_drop, List.length_drop] at h3
              simp only [List.length_cons]
              omega

/-- Every block-pill match starts at or after the scan position, has a
nonempty id, and its token ends within the text. -/
theorem blockScanAux_bounds :
    ∀ (fuel : Nat) (cs : List Char) (i s : Nat) (id : List Char),
      (s, id) ∈ blockScanAux fuel cs i →
      i ≤ s ∧ 1 ≤ id.length ∧ s + 10 + id.length ≤ i + cs.length := by
  intro fuel
  induction fuel with
  | zero => intro cs i s id h; simp [blockScanAux] at h
  | succ fuel ih =>
    intro cs i s id h
    cases cs with
    | nil => simp [blockScanAux] at h
    | cons c rest =>
      simp only [blockScanAux] at h
      by_cases hp : ("[[block:".data).isPrefixOf (c :: rest)
      case neg =>
        rw [if_neg hp] at h
        have h3 := ih rest (i + 1) s id h
        simp only [List.length_cons]
        omega
      case pos =>
        rw [if_pos hp] at h
        have hp8 : 8 ≤ (c :: rest).length :=
          (List.isPrefixOf_iff_prefix.mp hp).length_le
        set idrun := ((c :: rest).drop 8).takeWhile isIdChar with hid
        clear_value idrun
        by_cases hcond : 0 < idrun.length
            ∧ ("]]".data).isPrefixOf (((c :: rest).drop 8).drop idrun.length)
        case neg =>
          rw [if_neg hcond] at h
          have h3 := ih rest (i + 1) s id h
          simp only [List.length_cons]
          omega
        case pos =>
          rw [if_pos hcond] at h
          obtain ⟨hc1, hc2⟩ := hcond
          have hrunle : idrun.length ≤ ((c :: rest).drop 8).length := by
            rw [hid]
            exact (List.takeWhile_prefix _).length_le
          have hcl : 2 ≤ (((c :: rest).drop 8).drop idrun.length).length :=
            (List.isPrefixOf_iff_prefix.mp hc2).length_le
          rw [List.length_drop, List.length_drop] at hcl
          rw [List.length_drop] at hrunle
          rcases List.mem_cons.mp h with heq | hmem
          · rw [Prod.mk.injEq] at heq
            obtain ⟨heq1, heq2⟩ := heq
            subst heq1
            subst heq2
            simp only [List.length_cons] at hp8 hcl hrunle ⊢
            omega
          · have h3 := ih _ _ s id hmem
            rw [List.length_drop, List.length_drop] at h3
            simp only [List.length_cons] at hp8 hcl hrunle h3 ⊢
            omega

end LivePreview

namespace LivePreview

/-- Every bold/strikethrough match starts at or after the scan position,
spans at least the four marker characters plus one interior character, and
ends within the text. -/
theorem doubleMarkScanAux_bounds (marker : Char) :
    ∀ (fuel : Nat) (cs : List Char) (i s e : Nat),
      (s, e) ∈ doubleMarkScanAux marker fuel cs i →
      i ≤ s ∧ s + 5 ≤ e ∧ e ≤ i + cs.length := by
  intro fuel
  induction fuel with
  | zero => intro cs i s e h; simp [doubleMarkScanAux] at h
  | succ fuel ih =>
    intro cs i s e h
    cases cs with
    | nil => simp [doubleMarkScanAux] at h
    | cons c rest =>
      cases rest with
      | nil =>
        simp only [doubleMarkScanAux] at h
        have h3 := ih [] (i + 1) s e h
        simp only [List.length_cons, List.length_nil] at h3 ⊢
        omega
      | cons c2 rest2 =>
        cases rest2 with
        | nil =>
          simp only [doubleMarkScanAux] at h
          have h3 := ih [c2] (i + 1) s e h
          simp only [List.length_cons, List.length_nil] at h3 ⊢
          omega
        | cons c3 rest3 =>
          simp only [doubleMarkScanAux, List.drop_succ_cons, List.drop_zero] at h
          by_cases hcond : c = marker ∧ c2 = marker ∧ c3 ≠ marker ∧ c3 ≠ '\n'
          case neg =>
            rw [if_neg hcond] at h
            have h3 := ih (c2 :: c3 :: rest3) (i + 1) s e h
            simp only [List.length_cons] at h3 ⊢
            omega
          case pos =>
            rw [if_pos hcond] at h
            cases hfind : findIndexOfPrefix [marker, marker] rest3 with
            | none =>
              rw [hfind] at h
              have h3 := ih (c2 :: c3 :: rest3) (i + 1) s e h
              simp only [List.length_cons] at h3 ⊢
              omega
            | some j =>
              rw [hfind] at h
              have hj := findIndexOfPrefix_bounds [marker, marker] rest3 j hfind
              simp only [List.length_cons] at hj
              rcases List.mem_cons.mp h with heq | hmem
              · rw [Prod.mk.injEq] at heq
                simp only [List.length_cons]
                omega
              · have h3 := ih _ _ s e hmem
                simp only [List.length_drop, List.length_cons] at h3 ⊢
                omega

/-- A successful italic-tail attempt has a nonempty interior and its closing
star inside the tail. -/
theorem starTry_bounds :
    ∀ (tail : List Char) (k : Nat), starTry tail = some k → 0 < k ∧ k < tail.length := by
  intro tail k h
  simp only [starTry] at h
  set m := (tail.takeWhile (fun d => !(d == '*' || d == '\n'))).length with hm
  clear_value m
  by_cases hcond : 0 < m ∧ tail[m]? = some '*' ∧ tail[m + 1]? ≠ some '*'
  · rw [if_pos hcond] at h
    cases h
    refine ⟨hcond.1, ?_⟩
    rcases List.getElem?_eq_some_iff.mp hcond.2.1 with ⟨hlt, -⟩
    exact hlt
  · rw [if_neg hcond] at h
    cases h

/-- Every italic match has its opening star at or after the scan position,
at least one interior character, and its closing star within the text. -/
theorem italicScanAux_bounds :
    ∀ (fuel : Nat) (cs : List Char) (i o cl : Nat), (o, cl) ∈ italicScanAux fuel cs i →
      i ≤ o + 1 ∧ o + 2 ≤ cl ∧ cl + 1 ≤ i + cs.length := by
  intro fuel
  induction fuel with
  | zero => intro cs i o cl h; simp [italicScanAux] at h
  | succ fuel ih =>
    intro cs i o cl h
    cases cs with
    | nil => simp [italicScanAux] at h
    | cons c rest =>
      simp only [italicScanAux] at h
      by_cases hc : c = '*'
      case pos =>
        rw [if_pos hc] at h
        by_cases hi : i = 0
        case pos =>
          rw [if_pos hi] at h
          cases hstar : starTry rest with
          | some k =>
            rw [hstar] at h
            obtain ⟨hk1, hk2⟩ := starTry_bounds rest k hstar
            rcases List.mem_cons.mp h with heq | hmem
            · rw [Prod.mk.injEq] at heq
              simp only [List.length_cons]
              omega
            · have h3 := ih _ _ o cl hmem
              simp only [List.length_drop, List.length_cons] at h3 ⊢
              omega
          | none =>
            rw [hstar] at h
            have h3 := ih rest (i + 1) o cl h
            simp only [List.length_cons] at h3 ⊢
            omega
        case neg =>
          rw [if_neg hi] at h
          have h3 := ih rest (i + 1) o cl h
          simp only [List.length_cons] at h3 ⊢
          omega
      case neg =>
        rw [if_neg hc] at h
        cases rest with
        | nil => simp at h
        | cons r1 tail =>
          have h' : (o, cl) ∈
              (if r1 = '*' then
                match starTry tail with
                | some k =>
                  (i + 1, i + 2 + k) :: italicScanAux fuel (tail.drop (k + 1)) (i + 3 + k)
                | none => italicScanAux fuel (r1 :: tail) (i + 1)
              else italicScanAux fuel (r1 :: tail) (i + 1)) := h
          clear h
          rename' h' => h
          by_cases hr : r1 = '*'
          case neg =>
            rw [if_neg hr] at h
            have h3 := ih (r1 :: tail) (i + 1) o cl h
            simp only [List.length_cons] at h3 ⊢
            omega
          case pos =>
            rw [if_pos hr] at h
            cases hstar : starTry tail with
            | some k =>
              rw [hstar] at h
              obtain ⟨hk1, hk2⟩ := starTry_bounds tail k hstar
              rcases List.mem_cons.mp h with heq | hmem
              · rw [Prod.mk.injEq] at heq
                simp only [List.length_cons]
                omega
              · have h3 := ih _ _ o cl hmem
                simp only [List.length_drop, List.length_cons] at h3 ⊢
                omega
            | none =>
              rw [hstar] at h
              have h3 := ih (r1 :: tail) (i + 1) o cl h
              simp only [List.length_cons] at h3 ⊢
              omega

/-- Every alignment-directive match starts at or after the scan position,
names one of the three alignments, and its directive ends within the text. -/
theorem alignScanAux_bounds :
    ∀ (fuel : Nat) (cs : List Char) (i s : Nat) (ty : String),
      (s, ty) ∈ alignScanAux fuel cs i →
      i ≤ s ∧ (ty = "left" ∨ ty = "center" ∨ ty = "right")
      ∧ s + 8 + ty.length ≤ i + cs.length := by
  intro fuel
  induction fuel with
  | zero => intro cs i s ty h; simp [alignScanAux] at h
  | succ fuel ih =>
    intro cs i s ty h
    cases cs with
    | nil => simp [alignScanAux] at h
    | cons c rest =>
      rw [alignScanAux] at h
      by_cases h1 : ("[align-left]".data).isPrefixOf (c :: rest)
      case pos =>
        rw [if_pos h1] at h
        have hlen : 12 ≤ (c :: rest).length :=
          (List.isPrefixOf_iff_prefix.mp h1).length_le
        rcases List.mem_cons.mp h with heq | hmem
        · rw [Prod.mk.injEq] at heq
          obtain ⟨he1, he2⟩ := heq
          subst he1
          subst he2
          refine ⟨Nat.le_refl _, Or.inl rfl, ?_⟩
          have hty : ("left" : String).length = 4 := rfl
          rw [hty]
          simp only [List.length_cons] at hlen ⊢
          omega
        · have h3 := ih _ _ s ty hmem
          rw [List.length_drop] at h3
          simp only [List.length_cons] at h3 hlen ⊢
          exact ⟨by omega, h3.2.1, by omega⟩
      case neg =>
        rw [if_neg h1] at h
        by_cases h2 : ("[align-center]".data).isPrefixOf (c :: rest)
        case pos =>
          rw [if_pos h2] at h
          have hlen : 14 ≤ (c :: rest).length :=
            (List.isPrefixOf_iff_prefix.mp h2).length_le
          rcases List.mem_cons.mp h with heq | hmem
          · rw [Prod.mk.injEq] at heq
            obtain ⟨he1, he2⟩ := heq
            subst he1
            subst he2
            refine ⟨Nat.le_refl _, Or.inr (Or.inl rfl), ?_⟩
            have hty : ("center" : String).length = 6 := rfl
            rw [hty]
            simp only [List.length_cons] at hlen ⊢
            omega
          · have h3 := ih _ _ s ty hmem
            rw [List.length_drop] at h3
            simp only [List.length_cons] at h3 hlen ⊢
            exact ⟨by omega, h3.2.1, by omega⟩
        case neg =>
          rw [if_neg h2] at h
          by_cases h3p : ("[align-right]".data).isPrefixOf (c :: rest)
          case pos =>
            rw [if_pos h3p] at h
            have hlen : 13 ≤ (c :: rest).length :=
              (List.isPrefixOf_iff_prefix.mp h3p).length_le
            rcases List.mem_cons.mp h with heq | hmem
            · rw [Prod.mk.injEq] at heq
              obtain ⟨he1, he2⟩ := heq
              subst he1
              subst he2
              refine ⟨Nat.le_refl _, Or.inr (Or.inr rfl), ?_⟩
              have hty : ("right" : String).length = 5 := rfl
              rw [hty]
              simp only [List.length_cons] at hlen ⊢
              omega
            · have h3 := ih _ _ s ty hmem
              rw [List.length_drop] at h3
              simp only [List.length_cons] at h3 hlen ⊢
              exact ⟨by omega, h3.2.1, by omega⟩
          case neg =>
            rw [if_neg h3p] at h
            have h3 := ih rest (i + 1) s ty h
            simp only [List.length_cons] at h3 ⊢
            exact ⟨by omega, h3.2.1, by omega⟩

/-- A heading match has level between 1 and 6 and a marker that is longer
than the hashes and fits in the line. -/
theorem headingMatch_bounds :
    ∀ (text : List Char) (level markerLen : Nat),
      headingMatch text = some (level, markerLen) →
      1 ≤ level ∧ level ≤ 6 ∧ level + 1 ≤ markerLen ∧ markerLen ≤ text.length := by
  intro text level markerLen h
  simp only [headingMatch] at h
  set hs := (text.takeWhile (fun d => d == '#')).length with hhs
  clear_value hs
  by_cases h1 : 1 ≤ hs ∧ hs ≤ 6
  · rw [if_pos h1] at h
    set ws := ((text.drop hs).takeWhile jsSpace).length with hws
    clear_value ws
    by_cases h2 : 0 < ws
    · rw [if_pos h2] at h
      cases h
      have hsle : level ≤ text.length := by
        rw [hhs]
        exact (List.takeWhile_prefix _).length_le
      have hwsle : ws ≤ text.length - level := by
        rw [hws]
        have h4 := (List.takeWhile_prefix (l := text.drop level) jsSpace).length_le
        rwa [List.length_drop] at h4
      omega
    · rw [if_neg h2] at h
      cases h
  · rw [if_neg h1] at h
    cases h

end LivePreview

namespace LivePreview

/-- Spans of the decorations of one inline-code match are well-formed and
bounded by the end of the match. -/
theorem codeDecosOfMatch_bounds (lf : Nat) (sel : Nat × Nat) (m : Nat × Nat) (L : Nat)
    (h1 : m.1 + 3 ≤ m.2) (h2 : m.2 ≤ L) :
    ∀ d ∈ codeDecosOfMatch lf sel m, d.spanFrom ≤ d.spanTo ∧ d.spanTo ≤ lf + L := by
  intro d hd
  simp only [codeDecosOfMatch] at hd
  split at hd <;>
    simp only [List.nil_append, List.cons_append, List.mem_cons,
      List.mem_singleton, List.not_mem_nil, or_false] at hd
  · subst hd
    simp only [Deco.spanFrom, Deco.spanTo]
    omega
  · rcases hd with hd | hd | hd <;> subst hd <;>
      simp only [Deco.spanFrom, Deco.spanTo] <;> omega

/-- Spans of the decorations of one link match are well-formed and bounded. -/
theorem linkDecosOfMatch_bounds (lf : Nat) (sel : Nat × Nat) (m : Nat × Nat × Nat) (L : Nat)
    (h1 : 1 ≤ m.2.1) (h2 : 1 ≤ m.2.2) (h3 : m.1 + m.2.1 + m.2.2 + 4 ≤ L) :
    ∀ d ∈ linkDecosOfMatch lf sel m, d.spanFrom ≤ d.spanTo ∧ d.spanTo ≤ lf + L := by
  intro d hd
  simp only [linkDecosOfMatch] at hd
  split at hd <;>
    simp only [List.mem_cons, List.mem_singleton, List.not_mem_nil, or_false] at hd
  · subst hd
    simp only [Deco.spanFrom, Deco.spanTo]
    omega
  · rcases hd with hd | hd | hd | hd | hd | hd <;> subst hd <;>
      simp only [Deco.spanFrom, Deco.spanTo] <;> omega

/-- Spans of the decoration of one block-pill match are well-formed and
bounded. -/
theorem blockDecosOfMatch_bounds (lf : Nat) (sel : Nat × Nat)
    (lbl : Option (List Char → List Char)) (m : Nat × List Char) (L : Nat)
    (h1 : m.1 + 10 + m.2.length ≤ L) :
    ∀ d ∈ blockDecosOfMatch lf sel lbl m, d.spanFrom ≤ d.spanTo ∧ d.spanTo ≤ lf + L := by
  intro d hd
  simp only [blockDecosOfMatch] at hd
  split at hd <;>
    simp only [List.mem_singleton, List.not_mem_nil] at hd
  subst hd
  simp only [Deco.spanFrom, Deco.spanTo]
  omega

/-- Spans of the heading decorations of a line are well-formed and bounded. -/
theorem headingDecos_bounds (text : List Char) (lf : Nat) (sel : Nat × Nat) :
    ∀ d ∈ headingDecos text lf sel, d.spanFrom ≤ d.spanTo ∧ d.spanTo ≤ lf + text.length := by
  intro d hd
  cases hm : headingMatch text with
  | none =>
    simp only [headingDecos, hm] at hd
    exact absurd hd (List.not_mem_nil d)
  | some p =>
    obtain ⟨level, markerLen⟩ := p
    simp only [headingDecos, hm] at hd
    obtain ⟨hb1, hb2, hb3, hb4⟩ := headingMatch_bounds text level markerLen hm
    split at hd <;>
      simp only [List.nil_append, List.cons_append, List.mem_cons,
        List.mem_singleton, List.not_mem_nil, or_false] at hd
    · subst hd
      simp only [Deco.spanFrom, Deco.spanTo]
      omega
    · rcases hd with hd | hd <;> subst hd <;>
        simp only [Deco.spanFrom, Deco.spanTo] <;> omega

/-- Spans of the decorations of one bold match are well-formed and bounded. -/
theorem boldDecosOfMatch_bounds (lf : Nat) (sel : Nat × Nat) (m : Nat × Nat) (L : Nat)
    (h1 : m.1 + 5 ≤ m.2) (h2 : m.2 ≤ L) :
    ∀ d ∈ boldDecosOfMatch lf sel m, d.spanFrom ≤ d.spanTo ∧ d.spanTo ≤ lf + L := by
  intro d hd
  simp only [boldDecosOfMatch] at hd
  split at hd <;>
    simp only [List.nil_append, List.cons_append, List.mem_cons,
      List.mem_singleton, List.not_mem_nil, or_false] at hd
  · subst hd
    simp only [Deco.spanFrom, Deco.spanTo]
    omega
  · rcases hd with hd | hd | hd <;> subst hd <;>
      simp only [Deco.spanFrom, Deco.spanTo] <;> omega

/-- Spans of the decorations of one italic match are well-formed and
bounded. -/
theorem italicDecosOfMatch_bounds (lf : Nat) (sel : Nat × Nat)
    (boldRanges : List (Nat × Nat)) (m : Nat × Nat) (L : Nat)
    (h1 : m.1 + 2 ≤ m.2) (h2 : m.2 + 1 ≤ L) :
    ∀ d ∈ italicDecosOfMatch lf sel boldRanges m,
      d.spanFrom ≤ d.spanTo ∧ d.spanTo ≤ lf + L := by
  intro d hd
  simp only [italicDecosOfMatch] at hd
  split at hd
  · simp at hd
  · split at hd <;>
      simp only [List.nil_append, List.cons_append, List.mem_cons,
        List.mem_singleton, List.not_mem_nil, or_false] at hd
    · subst hd
      simp only [Deco.spanFrom, Deco.spanTo]
      omega
    · rcases hd with hd | hd | hd <;> subst hd <;>
        simp only [Deco.spanFrom, Deco.spanTo] <;> omega

/-- Spans of the decorations of one strikethrough match are well-formed and
bounded. -/
theorem strikeDecosOfMatch_bounds (lf : Nat) (sel : Nat × Nat) (m : Nat × Nat) (L : Nat)
    (h1 : m.1 + 5 ≤ m.2) (h2 : m.2 ≤ L) :
    ∀ d ∈ strikeDecosOfMatch lf sel m, d.spanFrom ≤ d.spanTo ∧ d.spanTo ≤ lf + L := by
  intro d hd
  simp only [strikeDecosOfMatch] at hd
  split at hd <;>
    simp only [List.nil_append, List.cons_append, List.mem_cons,
      List.mem_singleton, List.not_mem_nil, or_false] at hd
  · subst hd
    simp only [Deco.spanFrom, Deco.spanTo]
    omega
  · rcases hd with hd | hd | hd <;> subst hd <;>
      simp only [Deco.spanFrom, Deco.spanTo] <;> omega

/-- Spans of the decorations of one alignment match are well-formed and
bounded. -/
theorem alignDecosOfMatch_bounds (lf : Nat) (m : Nat × String) (L : Nat)
    (h1 : m.1 + 8 + m.2.length ≤ L) :
    ∀ d ∈ alignDecosOfMatch lf m, d.spanFrom ≤ d.spanTo ∧ d.spanTo ≤ lf + L := by
  intro d hd
  simp only [alignDecosOfMatch, List.mem_cons, List.mem_singleton, List.not_mem_nil,
    or_false] at hd
  rcases hd with hd | hd <;> subst hd <;>
    simp only [Deco.spanFrom, Deco.spanTo] <;> omega

/-- Every decoration emitted for one visible line has a well-formed span that
ends within the line. -/
theorem lineDecosFor_bounds (text : List Char) (lf : Nat) (sel : Nat × Nat)
    (lbl : Option (List Char → List Char)) :
    ∀ d ∈ lineDecosFor text lf sel lbl,
      d.spanFrom ≤ d.spanTo ∧ d.spanTo ≤ lf + text.length := by
  intro d hd
  unfold lineDecosFor at hd
  rcases List.mem_append.mp hd with hd | hd
  rotate_left
  · obtain ⟨m, hm, hdm⟩ := List.mem_flatMap.mp hd
    obtain ⟨hb1, hb2, hb3⟩ := alignScanAux_bounds (text.length + 1) text 0 m.1 m.2 hm
    exact alignDecosOfMatch_bounds lf m text.length (by omega) d hdm
  rcases List.mem_append.mp hd with hd | hd
  rotate_left
  · obtain ⟨m, hm, hdm⟩ := List.mem_flatMap.mp hd
    obtain ⟨hb1, hb2, hb3⟩ := doubleMarkScanAux_bounds '~' (text.length + 1) text 0 m.1 m.2 hm
    exact strikeDecosOfMatch_bounds lf sel m text.length (by omega) (by omega) d hdm
  rcases List.mem_append.mp hd with hd | hd
  rotate_left
  · obtain ⟨m, hm, hdm⟩ := List.mem_flatMap.mp hd
    obtain ⟨hb1, hb2, hb3⟩ := italicScanAux_bounds (text.length + 1) text 0 m.1 m.2 hm
    exact italicDecosOfMatch_bounds lf sel _ m text.length (by omega) (by omega) d hdm
  rcases List.mem_append.mp hd with hd | hd
  rotate_left
  · obtain ⟨m, hm, hdm⟩ := List.mem_flatMap.mp hd
    obtain ⟨hb1, hb2, hb3⟩ := doubleMarkScanAux_bounds '*' (text.length + 1) text 0 m.1 m.2 hm
    exact boldDecosOfMatch_bounds lf sel m text.length (by omega) (by omega) d hdm
  rcases List.mem_append.mp hd with hd | hd
  rotate_left
  · exact headingDecos_bounds text lf sel d hd
  rcases List.mem_append.mp hd with hd | hd
  rotate_left
  · obtain ⟨m, hm, hdm⟩ := List.mem_flatMap.mp hd
    obtain ⟨hb1, hb2, hb3⟩ := blockScanAux_bounds (text.length + 1) text 0 m.1 m.2 hm
    exact blockDecosOfMatch_bounds lf sel lbl m text.length (by omega) d hdm
  rcases List.mem_append.mp hd with hd | hd
  · obtain ⟨m, hm, hdm⟩ := List.mem_flatMap.mp hd
    obtain ⟨hb1, hb2, hb3⟩ := codeScanAux_bounds (text.length + 1) text 0 m.1 m.2 hm
    exact codeDecosOfMatch_bounds lf sel m text.length (by omega) (by omega) d hdm
  · obtain ⟨m, hm, hdm⟩ := List.mem_flatMap.mp hd
    obtain ⟨hb1, hb2, hb3, hb4⟩ :=
      linkScanAux_bounds (text.length + 1) text 0 m.1 m.2.1 m.2.2 hm
    exact linkDecosOfMatch_bounds lf sel m text.length (by omega) (by omega) (by omega) d hdm

end LivePreview

namespace LivePreview

/-- Spans of the table-branch decorations are well-formed and bounded by the
document, given that the block's start position is in bounds. -/
theorem tableBranchDecos_bounds (doc : List Char) (tb : TableBlockRange)
    (htb : tb.startPos ≤ doc.length) :
    ∀ d ∈ tableBranchDecos doc tb, d.spanFrom ≤ d.spanTo ∧ d.spanTo ≤ doc.length := by
  intro d hd
  simp only [tableBranchDecos, List.mem_cons, List.mem_map, List.mem_range] at hd
  rcases hd with hd | ⟨k, hk, hd⟩
  · subst hd
    exact ⟨Nat.le_refl _, htb⟩
  · subst hd
    obtain ⟨h1, h2⟩ := lineGet_bounds doc (tb.startLine + k)
    simp only [Deco.spanFrom, Deco.spanTo]
    omega

/-- Every recorded table block starts within the document. -/
theorem scanTableBlocks_startPos_le (doc : List Char) :
    ∀ tb ∈ scanTableBlocks doc, tb.startPos ≤ doc.length := by
  intro tb htb
  obtain ⟨h1, -⟩ := scanTableBlocksAux_pos doc (numLines doc + 1) 1 tb htb
  obtain ⟨h2, h3⟩ := lineGet_bounds doc tb.startLine
  omega

/-- Every decoration emitted by the per-line loop has a well-formed span
within the document. -/
theorem vrLoop_bounds (doc : List Char) (codeBlocks : List CodeBlockRange)
    (tableBlocks : List TableBlockRange) (sel : Nat × Nat)
    (lbl : Option (List Char → List Char))
    (htb : ∀ tb ∈ tableBlocks, tb.startPos ≤ doc.length) :
    ∀ (fuel lineNo toLineNo : Nat) (d : Deco),
      d ∈ vrLoop doc codeBlocks tableBlocks sel lbl fuel lineNo toLineNo →
      d.spanFrom ≤ d.spanTo ∧ d.spanTo ≤ doc.length := by
  intro fuel
  induction fuel with
  | zero => intro lineNo toLineNo d hd; simp [vrLoop] at hd
  | succ fuel ih =>
    intro lineNo toLineNo d hd
    simp only [vrLoop] at hd
    split at hd
    · exact absurd hd (List.not_mem_nil d)
    · split at hd
      case h_1 tb heq =>
        rcases List.mem_append.mp hd with hd | hd
        · exact tableBranchDecos_bounds doc tb
            (htb tb (List.mem_of_find?_eq_some heq)) d hd
        · exact ih _ _ d hd
      case h_2 heq =>
        rcases List.mem_append.mp hd with hd | hd
        rotate_left
        · exact ih _ _ d hd
        rcases List.mem_append.mp hd with hd | hd
        · split at hd
          · simp only [List.mem_singleton] at hd
            subst hd
            obtain ⟨h1, h2⟩ := lineGet_bounds doc lineNo
            simp only [Deco.spanFrom, Deco.spanTo]
            omega
          · exact absurd hd (List.not_mem_nil d)
        · have h := lineDecosFor_bounds (lineGet doc lineNo).text (lineGet doc lineNo).fromPos
            sel lbl d hd
          obtain ⟨h1, h2⟩ := lineGet_bounds doc lineNo
          exact ⟨h.1, by omega⟩

end LivePreview

namespace LivePreview

/-- C9: for every document, every set of visible ranges within document
bounds, and every selection, every decoration emitted by `buildDecorations`
has a span `(from, to)` with `from ≤ to ≤` document length (offsets are
naturals, so `0 ≤ from` holds by type). -/
theorem decoration_spans_within_document :
    ∀ (doc : List Char) (visibleRanges : List (Nat × Nat)) (sel : Nat × Nat)
      (lbl : Option (List Char → List Char)),
      (∀ vr ∈ visibleRanges, vr.1 ≤ vr.2 ∧ vr.2 ≤ doc.length) →
      ∀ d ∈ buildDecorations doc visibleRanges sel lbl,
        d.spanFrom ≤ d.spanTo ∧ d.spanTo ≤ doc.length := by
  intro doc vrs sel lbl hvr d hd
  unfold buildDecorations sortDecos at hd
  rw [List.mem_insertionSort] at hd
  obtain ⟨vr, hvrm, hd⟩ := List.mem_flatMap.mp hd
  exact vrLoop_bounds doc (scanCodeBlocks doc) (scanTableBlocks doc) sel lbl
    (scanTableBlocks_startPos_le doc) _ _ _ d hd

/-- Witness for C9 on the concrete document `"# a"`: the emitted marker hide
decoration's span lies within the document. -/
theorem decoration_spans_within_document_witness :
    (Deco.replace 0 2).spanFrom ≤ (Deco.replace 0 2).spanTo
    ∧ (Deco.replace 0 2).spanTo ≤ "# a".data.length :=
  decoration_spans_within_document "# a".data [(0, 3)] (0, 0) none
    (by decide) (Deco.replace 0 2) (by decide)

end LivePreview
